import Mathlib

/-
  Verification development for the dfhack structure-reflection bridge and
  job/brush utilities.

  The reflection core (field accessor protocol, container adapter, recursive
  assignment engine) is described by the repository's Lua API documentation
  and the design spec; its implementation is not among the sampled sources,
  so those components are modelled from the spec's words (each such
  definition is marked).  The job-list functions (cloneJobStruct,
  linkJobIntoWorld) and the FloodBrush are embedded from the sampled C++
  sources directly.
-/

namespace DFReflect

/-! ### Field resolution with single inheritance (spec section 4.2, invariant 2)

Modelled from the spec: a type descriptor carries its own field list and a
single-inheritance base link; a Reference resolves an unqualified field name
by preferring the matching field declared on the most-base type of the
chain, while a qualified key of the form base-or-derived type name, a dot,
and the field name pins the declaring type.  The chain is represented
most-derived-first, mirroring the base links flattened. -/

/-- One type of the inheritance chain: its qualified name and the fields it
declares itself (field name paired with a declaration identifier, standing
for the field's storage/metadata). -/
structure TypeInfo where
  name : String
  fieldsOwn : List (String × Nat)
deriving DecidableEq, Repr

/-- Association-list lookup on the first matching key. -/
def lookupField : List (String × Nat) → String → Option Nat
  | [], _ => none
  | (g, v) :: t, f => if g = f then some v else lookupField t f

/-- Modelled from the spec: unqualified field resolution over the chain
(most-derived first) prefers the most-base declaration, so the base part of
the chain is consulted before the type's own fields. -/
def resolveUnqual : List TypeInfo → String → Option Nat
  | [], _ => none
  | t :: rest, f =>
    match resolveUnqual rest f with
    | some v => some v
    | none => lookupField t.fieldsOwn f

/-- A field access key: either a plain field name or a qualified
type-name/field-name pair. -/
inductive FKey : Type where
  | plain (f : String)
  | qualified (tn f : String)
deriving DecidableEq, Repr

/-- Splitting a character list at its unique dot: some (before, after) when
the list contains exactly one dot, none otherwise. -/
def splitAtDot : List Char → Option (List Char × List Char)
  | [] => none
  | c :: t =>
    if c = '.' then
      if t.contains '.' then none else some ([], t)
    else
      (splitAtDot t).map (fun p => (c :: p.1, p.2))

/-- Parsing of the string key used by the scripting boundary: a key of the
form name-dot-name is qualified, everything else plain. -/
def parseKey (s : String) : FKey :=
  match splitAtDot s.toList with
  | some (tn, f) => .qualified (String.mk tn) (String.mk f)
  | none => .plain s

inductive FErr : Type where
  | NoSuchField
  | TypeMismatch
deriving DecidableEq, Repr

/-- Modelled from the spec: getField over a parsed key.  A plain key walks
the chain with most-base preference; a qualified key requires the named
type to occur in the chain (else TypeMismatch) and looks the field up among
that type's own declarations. -/
def getFieldK (chain : List TypeInfo) : FKey → Except FErr Nat
  | .plain f =>
    match resolveUnqual chain f with
    | some v => .ok v
    | none => .error .NoSuchField
  | .qualified tn f =>
    match chain.find? (fun t => t.name == tn) with
    | none => .error .TypeMismatch
    | some t =>
      match lookupField t.fieldsOwn f with
      | some v => .ok v
      | none => .error .NoSuchField

/-- A typed object reference: the resolved dynamic type's chain plus the
object address.  Constructed fresh on every access; equality is by value. -/
structure Ref where
  chain : List TypeInfo
  address : Nat
deriving DecidableEq, Repr

/-- String-keyed field lookup on a reference. -/
def getField (r : Ref) (key : String) : Except FErr Nat :=
  getFieldK r.chain (parseKey key)

/-- Modelled from the spec: two References are equal iff same resolved
dynamic type and same address. -/
def refEquals (a b : Ref) : Bool :=
  a.chain == b.chain && a.address == b.address

end DFReflect

namespace DFReflect

/-! ### Container adapter (spec section 4.3)

Modelled from the spec: one contract over strict vectors and the relaxed
bit/flag-array family.  A strict container fails out-of-range reads with
IndexOutOfRange; the bit/flag-array family instead grows its storage to
accommodate the index and returns the type-appropriate default. -/

inductive CFamily : Type where
  | vec
  | bitArray
deriving DecidableEq, Repr

structure Container where
  family : CFamily
  elems : List Int
deriving DecidableEq, Repr

inductive CErr : Type where
  | IndexOutOfRange
deriving DecidableEq, Repr

def Container.length (c : Container) : Nat := c.elems.length

/-- Modelled from the spec: get returns the element for an in-range index;
out of range, a strict container fails with IndexOutOfRange while the
relaxed bit/flag-array family silently grows storage to cover the index and
returns the default value.  The (possibly grown) container is returned
alongside the value. -/
def containerGet (c : Container) (i : Nat) : Except CErr (Int × Container) :=
  if h : i < c.elems.length then
    .ok (c.elems.get ⟨i, h⟩, c)
  else
    match c.family with
    | .vec => .error .IndexOutOfRange
    | .bitArray =>
      .ok (0, ⟨.bitArray, c.elems ++ List.replicate (i + 1 - c.elems.length) 0⟩)

end DFReflect

namespace DFJob

/-! ### Job cloning and world job list (modules/Job.cpp)

Embedded from the source: cloneJobStruct copy-constructs a job, cleans the
transient fields, drops general_ref_unit_workerst references while cloning
the rest in a downward index loop, and copy-constructs the job_items.
linkJobIntoWorld (new_id = false) walks the sorted world job list and
inserts the job's link before the first link with an id not below the
job's, refusing duplicates. -/

/-- The job flags bitfield: the repeat and suspend bits are modelled
explicitly, every other bit collectively as otherBits.  Writing whole = 0
clears all three components. -/
structure JobFlags where
  rep : Bool
  suspend : Bool
  otherBits : Nat
deriving DecidableEq, Repr

/-- A general_ref vector entry: whether a virtual_cast to
general_ref_unit_workerst succeeds, plus its payload. -/
structure GeneralRef where
  isUnitWorker : Bool
  payload : Nat
deriving DecidableEq, Repr

/-- The virtual clone() of a general_ref produces a fresh copy carrying the
same data; in this value model a copy is the value itself. -/
def GeneralRef.clone (r : GeneralRef) : GeneralRef := r

/-- A job_item; copy-construction produces an equal value. -/
structure JobItem where
  itemType : Int
  quantity : Int
deriving DecidableEq, Repr

structure Job where
  id : Int
  jobType : Int
  listLink : Option Nat
  completionTimer : Int
  items : List Nat
  miscLinks : List Nat
  flags : JobFlags
  references : List GeneralRef
  jobItems : List JobItem
deriving DecidableEq, Repr

/-- The reference-cleaning loop of cloneJobStruct: for i from n-1 down to 0,
erase references[i] when it casts to general_ref_unit_workerst, otherwise
replace it by its clone.  The argument counts how many leading indices
remain to process (the C++ loop starts at size-1). -/
def refsLoop : List GeneralRef → Nat → List GeneralRef
  | v, 0 => v
  | v, i + 1 =>
    match v.get? i with
    | none => refsLoop v i
    | some r =>
      if r.isUnitWorker then refsLoop (v.eraseIdx i) i
      else refsLoop (v.set i r.clone) i

/-- DFHack::cloneJobStruct: copy-construct the job, zero the flags except
the repeat and suspend bits, null the list link, reset the completion
timer, clear items and misc_links, filter/clone the references, and
copy-construct each job_item. -/
def cloneJobStruct (job : Job) : Job :=
  { job with
    flags := ⟨job.flags.rep, job.flags.suspend, 0⟩
    listLink := none
    completionTimer := -1
    items := []
    miscLinks := []
    references := refsLoop job.references job.references.length
    jobItems := job.jobItems.map (fun it => ⟨it.itemType, it.quantity⟩) }

/-- DFHack::linkJobIntoWorld with new_id = false, on the world job list
represented by the ids of the linked jobs in list order.  The insertion
cursor starts at the list head and advances while the next link's id is
below the job's; a link with an equal id makes the call return false
without touching the list, otherwise a link for the job is inserted at the
cursor and the call returns true. -/
def linkJobIntoWorld : List Int → Int → Bool × List Int
  | [], id => (true, [id])
  | j :: rest, id =>
    if j < id then
      let r := linkJobIntoWorld rest id
      (r.1, j :: r.2)
    else if j = id then (false, j :: rest)
    else (true, id :: j :: rest)

end DFJob

namespace DFAssign

/-! ### Recursive assignment engine (spec section 4.4)

Modelled from the spec: assign(target, source) bulk-applies a nested
key-value tree onto a Reference's memory.  The memory is a heap of struct
objects addressed by naturals; struct cells are scalar ints, typed
pointers, or containers of scalar ints (the container element type is
specialised to scalars, the resize/patch algorithm itself is kept in
full).  Rule order follows the spec: an assign entry delegates and stops;
a tree on a non-null pointer descends into the pointee; a tree on a null
pointer consults the new entry (absent/false fails with
NullPointerAssignment, true or a compatible type name allocates a default
instance of the pointer's static target type and binds it, with new never
treated as an ordinary field afterwards); a container tree without assign
and resize entries is a plain 1-based list (resize to its length, assign
in order), otherwise resize must be true (size = the maximum numeric key
present), false (no resize), or an explicit count, followed by per-key
assignment skipping resize/assign; a struct target assigns every remaining
key via setField, recursing on nested trees.  Failures abort the walk and
carry the memory reached so far - there is no rollback. -/

/-- A key of the nested tree: string or numeric. -/
inductive TKey : Type where
  | str (s : String)
  | num (n : Nat)
deriving DecidableEq, Repr

mutual
/-- A value of the nested tree: scalar, boolean (for new/resize entries),
the explicit null-pointer sentinel, a named type (for new entries), or a
nested tree. -/
inductive TVal : Type where
  | int (n : Int)
  | bool (b : Bool)
  | null
  | typeName (s : String)
  | tree (es : TEntries)

/-- The entry list of a nested tree. -/
inductive TEntries : Type where
  | nil
  | cons (k : TKey) (v : TVal) (tail : TEntries)
end

/-- First entry with the given string key. -/
def TEntries.lookupStr : TEntries → String → Option TVal
  | .nil, _ => none
  | .cons (.str s) v t, q => if s = q then some v else t.lookupStr q
  | .cons (.num _) _ t, q => t.lookupStr q

/-- First entry with the given numeric key. -/
def TEntries.lookupNum : TEntries → Nat → Option TVal
  | .nil, _ => none
  | .cons (.num n) v t, q => if n = q then some v else t.lookupNum q
  | .cons (.str _) _ t, q => t.lookupNum q

def TEntries.hasStr (es : TEntries) (s : String) : Bool := (es.lookupStr s).isSome

def TEntries.hasNum (es : TEntries) (n : Nat) : Bool := (es.lookupNum n).isSome

/-- The largest numeric key present (0 when none), used by resize = true. -/
def TEntries.maxNumKey : TEntries → Nat
  | .nil => 0
  | .cons (.num n) _ t => max n t.maxNumKey
  | .cons (.str _) _ t => t.maxNumKey

/-- Number of entries. -/
def TEntries.count : TEntries → Nat
  | .nil => 0
  | .cons _ _ t => t.count + 1

/-- Whether the numeric keys 1..n are all present. -/
def TEntries.seqPrefix (es : TEntries) : Nat → Bool
  | 0 => true
  | n + 1 => es.seqPrefix n && (es.lookupNum (n + 1)).isSome

/-- Largest n below the bound such that keys 1..n are all present. -/
def luaLenFrom (es : TEntries) : Nat → Nat
  | 0 => 0
  | n + 1 => if es.seqPrefix (n + 1) then n + 1 else luaLenFrom es n

/-- The length of the tree viewed as a plain 1-based ordered list. -/
def TEntries.luaLen (es : TEntries) : Nat := luaLenFrom es es.count

/-- Concatenation of entry lists. -/
def TEntries.append : TEntries → TEntries → TEntries
  | .nil, es => es
  | .cons k v t, es => .cons k v (t.append es)

/-- Declared kind of a struct field in the trusted schema. -/
inductive FieldT : Type where
  | fInt
  | fPtr (ty : String)
  | fCont
deriving DecidableEq, Repr

/-- A struct type of the schema: name and field declarations. -/
structure StructD where
  name : String
  fields : List (String × FieldT)
deriving DecidableEq, Repr

abbrev Schema := List StructD

def Schema.lookupType (sch : Schema) (n : String) : Option StructD :=
  sch.find? (fun d => d.name == n)

/-- A memory cell: scalar, typed pointer (null or an address), or a
container of scalars. -/
inductive Cell : Type where
  | cInt (v : Int)
  | cPtr (ty : String) (tgt : Option Nat)
  | cCont (elems : List Int)
deriving DecidableEq, Repr

/-- A struct object in foreign memory: its dynamic type name and cells. -/
structure Obj where
  typeName : String
  cells : List (String × Cell)
deriving DecidableEq, Repr

/-- The foreign memory: allocated objects by address plus the next fresh
address. -/
structure Mem where
  heap : List (Nat × Obj)
  nextAddr : Nat
deriving DecidableEq, Repr

/-- Association-list lookup (first match). -/
def alookup {κ α : Type} [DecidableEq κ] : List (κ × α) → κ → Option α
  | [], _ => none
  | (k, v) :: t, q => if k = q then some v else alookup t q

/-- Association-list in-place update of the first match. -/
def areplace {κ α : Type} [DecidableEq κ] : List (κ × α) → κ → α → List (κ × α)
  | [], _, _ => []
  | (k, v) :: t, q, x => if k = q then (k, x) :: t else (k, v) :: areplace t q x

def Mem.getObj (m : Mem) (a : Nat) : Option Obj := alookup m.heap a

def Mem.getCell (m : Mem) (a : Nat) (f : String) : Option Cell :=
  match m.getObj a with
  | none => none
  | some o => alookup o.cells f

def Mem.setCell (m : Mem) (a : Nat) (f : String) (c : Cell) : Mem :=
  match m.getObj a with
  | none => m
  | some o => { m with heap := areplace m.heap a ⟨o.typeName, areplace o.cells f c⟩ }

def defaultCell : FieldT → Cell
  | .fInt => .cInt 0
  | .fPtr ty => .cPtr ty none
  | .fCont => .cCont []

/-- A default instance of a schema type: every field at its default. -/
def defaultObj (d : StructD) : Obj :=
  ⟨d.name, d.fields.map (fun p => (p.1, defaultCell p.2))⟩

/-- Allocation of a default instance at the next fresh address. -/
def Mem.alloc (m : Mem) (d : StructD) : Mem × Nat :=
  (⟨(m.nextAddr, defaultObj d) :: m.heap, m.nextAddr + 1⟩, m.nextAddr)

/-- Container resize: keep a prefix, pad with zeros up to the new size. -/
def resizeList (l : List Int) (n : Nat) : List Int :=
  l.take n ++ List.replicate (n - l.length) 0

/-- An assignment target: a whole struct object or a field lvalue. -/
inductive Target : Type where
  | obj (a : Nat)
  | fld (a : Nat) (f : String)
deriving DecidableEq, Repr

inductive AErr : Type where
  | NoSuchField
  | TypeMismatch
  | IndexOutOfRange
  | NullPointerAssignment
deriving DecidableEq, Repr

/-- Result of an assignment walk: the new memory, or the error paired with
the memory reached when the walk stopped (no rollback). -/
abbrev ARes := Except (AErr × Mem) Mem

/-- The plain-list container walk: for the k indices starting at i, write
element i from the 1-based table key i+1; non-scalar values fail. -/
def writeSeq (a : Nat) (f : String) (es : TEntries) : Mem → Nat → Nat → ARes
  | m, _, 0 => .ok m
  | m, i, k + 1 =>
    match es.lookupNum (i + 1) with
    | some (.int v) =>
      match m.getCell a f with
      | some (.cCont el) =>
        writeSeq a f es (m.setCell a f (.cCont (el.set i v))) (i + 1) k
      | _ => .error (.NoSuchField, m)
    | some _ => .error (.TypeMismatch, m)
    | none => .error (.TypeMismatch, m)

/-- The struct-like per-key walk over a container target, skipping the
resize and assign entries themselves: numeric keys are bounds-checked
element writes, any other string key has no matching field. -/
def keyedWrites (a : Nat) (f : String) : Mem → TEntries → ARes
  | m, .nil => .ok m
  | m, .cons k v t =>
    match k with
    | .str s =>
      if s = "resize" ∨ s = "assign" then keyedWrites a f m t
      else .error (.NoSuchField, m)
    | .num n =>
      match m.getCell a f with
      | some (.cCont el) =>
        if n < el.length then
          match v with
          | .int vv => keyedWrites a f (m.setCell a f (.cCont (el.set n vv))) t
          | _ => .error (.TypeMismatch, m)
        else .error (.IndexOutOfRange, m)
      | _ => .error (.NoSuchField, m)

/-- Container assignment rules (spec rule 4): no resize entry means plain
1-based list (resize to the list length, then assign in order); otherwise
resize must be true (new size = maximum numeric key present), false (no
resize), or an explicit count, followed by the per-key walk. -/
def contAssign (a : Nat) (f : String) (m : Mem) (elems : List Int)
    (es : TEntries) : ARes :=
  match es.lookupStr "resize" with
  | none =>
    writeSeq a f es (m.setCell a f (.cCont (resizeList elems es.luaLen))) 0 es.luaLen
  | some (.bool false) => keyedWrites a f m es
  | some (.bool true) =>
    keyedWrites a f (m.setCell a f (.cCont (resizeList elems es.maxNumKey))) es
  | some (.int c) =>
    if c < 0 then .error (.TypeMismatch, m)
    else keyedWrites a f (m.setCell a f (.cCont (resizeList elems c.toNat))) es
  | some _ => .error (.TypeMismatch, m)

theorem TEntries.lookupStr_sizeOf :
    ∀ (es : TEntries) (s : String) (v : TVal),
      es.lookupStr s = some v → sizeOf v < sizeOf es
  | .nil, s, v, h => by simp [TEntries.lookupStr] at h
  | .cons (.str s0) w t, s, v, h => by
    by_cases hs : s0 = s
    · simp only [TEntries.lookupStr, if_pos hs] at h
      cases h
      simp
      omega
    · simp only [TEntries.lookupStr, if_neg hs] at h
      have := TEntries.lookupStr_sizeOf t s v h
      simp
      omega
  | .cons (.num n) w t, s, v, h => by
    simp only [TEntries.lookupStr] at h
    have := TEntries.lookupStr_sizeOf t s v h
    simp
    omega

mutual
/-- Modelled from the spec: assignment of a tree value to a target.  A
tree with an assign entry delegates entirely to the target's own
assignment with that value and stops; otherwise the tree is dispatched on
the target's kind.  A scalar converts and copies into a scalar field; the
null sentinel clears a pointer field; anything else is a type mismatch. -/
def assignValue (sch : Schema) (m : Mem) (t : Target) (v : TVal) : ARes :=
  match v with
  | .tree es =>
    match _hdel : es.lookupStr "assign" with
    | some av => assignValue sch m t av
    | none => assignTree sch m t es
  | .int n =>
    match t with
    | .fld a f =>
      match m.getCell a f with
      | some (.cInt _) => .ok (m.setCell a f (.cInt n))
      | some _ => .error (.TypeMismatch, m)
      | none => .error (.NoSuchField, m)
    | .obj _ => .error (.TypeMismatch, m)
  | .null =>
    match t with
    | .fld a f =>
      match m.getCell a f with
      | some (.cPtr ty _) => .ok (m.setCell a f (.cPtr ty none))
      | some _ => .error (.TypeMismatch, m)
      | none => .error (.NoSuchField, m)
    | .obj _ => .error (.TypeMismatch, m)
  | .bool _ => .error (.TypeMismatch, m)
  | .typeName _ => .error (.TypeMismatch, m)
termination_by 3 * sizeOf v
decreasing_by
  · simp_wf
    have := TEntries.lookupStr_sizeOf es "assign" av _hdel
    simp
    omega
  · simp_wf
    try simp
    omega

/-- Tree assignment after the assign-entry check: struct targets get the
per-key walk; container fields get the container rules; a non-null pointer
field descends into the pointee; a null pointer field consults the new
entry, failing with NullPointerAssignment when it is absent or false and
otherwise allocating and binding a default instance of the pointer's
static target type before descending. -/
def assignTree (sch : Schema) (m : Mem) (t : Target) (es : TEntries) : ARes :=
  match t with
  | .obj a => assignStructEntries sch m a es
  | .fld a f =>
    match m.getCell a f with
    | none => .error (.NoSuchField, m)
    | some (.cInt _) => .error (.TypeMismatch, m)
    | some (.cCont elems) => contAssign a f m elems es
    | some (.cPtr ty p) =>
      match p with
      | some b => assignStructEntries sch m b es
      | none =>
        match es.lookupStr "new" with
        | none => .error (.NullPointerAssignment, m)
        | some (.bool false) => .error (.NullPointerAssignment, m)
        | some (.bool true) =>
          match Schema.lookupType sch ty with
          | none => .error (.TypeMismatch, m)
          | some d =>
            assignStructEntries sch
              (((m.alloc d).1).setCell a f (.cPtr ty (some (m.alloc d).2)))
              (m.alloc d).2 es
        | some (.typeName tn) =>
          if tn = ty then
            match Schema.lookupType sch ty with
            | none => .error (.TypeMismatch, m)
            | some d =>
              assignStructEntries sch
                (((m.alloc d).1).setCell a f (.cPtr ty (some (m.alloc d).2)))
                (m.alloc d).2 es
          else .error (.TypeMismatch, m)
        | some _ => .error (.TypeMismatch, m)
termination_by 3 * sizeOf es + 2
decreasing_by
  all_goals simp_wf

/-- The struct per-key walk (spec rule 5): every remaining entry is a
setField on the target, recursing on nested trees; the assign and new
entries are never treated as ordinary fields; a failing entry aborts the
remaining walk without rollback. -/
def assignStructEntries (sch : Schema) (m : Mem) (a : Nat) : TEntries → ARes
  | .nil => .ok m
  | .cons k v t =>
    match k with
    | .num _ => .error (.NoSuchField, m)
    | .str s =>
      if s = "assign" ∨ s = "new" then assignStructEntries sch m a t
      else
        match assignValue sch m (.fld a s) v with
        | .ok m1 => assignStructEntries sch m1 a t
        | .error e => .error e
termination_by es => 3 * sizeOf es + 1
decreasing_by
  all_goals simp_wf
  all_goals omega
end

/-- What a field read yields: a converted scalar, the language-level
absence value for a null pointer, a reference to the pointee, or a
container view. -/
inductive RVal : Type where
  | rInt (n : Int)
  | rNil
  | rRef (b : Nat)
  | rCont (el : List Int)
deriving DecidableEq, Repr

/-- Modelled from the spec: a field read never dereferences a null
pointer; a null pointer field yields the absence value rNil rather than an
error. -/
def getFieldVal (m : Mem) (a : Nat) (f : String) : Except AErr RVal :=
  match m.getCell a f with
  | none => .error .NoSuchField
  | some (.cInt v) => .ok (.rInt v)
  | some (.cPtr _ none) => .ok .rNil
  | some (.cPtr _ (some b)) => .ok (.rRef b)
  | some (.cCont el) => .ok (.rCont el)

/-- The memory reached by a walk, whether it succeeded or stopped early. -/
def finalMem : ARes → Mem
  | .ok m => m
  | .error (_, m) => m

/-- Memory well-formedness: every bound address is below nextAddr. -/
def Mem.wf (m : Mem) : Prop := ∀ p ∈ m.heap, p.1 < m.nextAddr

/-- The kind of a cell, used to phrase tree/field compatibility. -/
inductive FKind : Type where
  | kInt
  | kPtr
  | kCont
deriving DecidableEq, Repr

def Cell.kind : Cell → FKind
  | .cInt _ => .kInt
  | .cPtr _ _ => .kPtr
  | .cCont _ => .kCont

/-- The kind map of an object's cells. -/
def Obj.kinds (o : Obj) : List (String × FKind) :=
  o.cells.map (fun p => (p.1, p.2.kind))

/-- A container subtree free of aliasing hazards: its only string key is
resize (at most once), its numeric keys are pairwise distinct and carry
scalar values. -/
def safeContEntries : TEntries → Bool
  | .nil => true
  | .cons (.str s) _ t => (s == "resize") && !(t.hasStr "resize") && safeContEntries t
  | .cons (.num n) v t =>
    (match v with
     | .int _ => true
     | _ => false) && !(t.hasNum n) && safeContEntries t

/-- A value compatible with a field kind without touching pointees: a
scalar for a scalar field, the explicit null sentinel for a pointer field,
a safe container subtree for a container field. -/
def safeFld (k : FKind) (v : TVal) : Bool :=
  match k, v with
  | .kInt, .int _ => true
  | .kPtr, .null => true
  | .kCont, .tree es => safeContEntries es
  | _, _ => false

/-- A struct-level tree free of aliasing hazards relative to the kind map
of the target object: keys are distinct declared field names (never
assign/new), and every value is compatible with its field kind without
descending through pointers. -/
def safeStructEntries (ks : List (String × FKind)) : TEntries → Bool
  | .nil => true
  | .cons (.str s) v t =>
    !(s == "assign") && !(s == "new") && !(t.hasStr s) &&
    (match alookup ks s with
     | some k => safeFld k v
     | none => false) && safeStructEntries ks t
  | .cons (.num _) _ _ => false

end DFAssign

namespace DFBrush

/-! ### FloodBrush (Brushes.h)

Embedded from the source: FloodBrush::points flood-fills water tiles from
the start coordinate with an explicit stack and a seen set, pushing the
four horizontal neighbours of every newly collected tile and the vertical
neighbours when the tile type is passable in that direction.  The map
cache is abstracted to the four queries the brush makes.  Termination is
the finiteness of the coordinates accepted by testCoord, witnessed by the
list univ; the loop is a total function by the decreasing measure. -/

structure DFCoord where
  x : Int
  y : Int
  z : Int
deriving DecidableEq, Repr

inductive TileLiquid : Type where
  | Water
  | Magma
deriving DecidableEq, Repr

structure TileDesignation where
  flowSize : Nat
  liquidType : TileLiquid
deriving DecidableEq, Repr

/-- The slice of MapExtras::MapCache that FloodBrush::points consumes:
testCoord, designationAt, and the passability of the tile type at a
coordinate (LowPassable/HighPassable composed with tiletypeAt).
Modelled from the spec: designationAt outside the cache (testCoord false)
yields the zero designation, as an absent map block carries no flow. -/
structure MapCacheM where
  testCoord : DFCoord → Bool
  designationAt : DFCoord → TileDesignation
  lowPassable : DFCoord → Bool
  highPassable : DFCoord → Bool

/-- maybeFlood: push the coordinate when the cache accepts it. -/
def maybeFlood (c : DFCoord) (stack : List DFCoord) (mc : MapCacheM) : List DFCoord :=
  if mc.testCoord c then c :: stack else stack

/-- Number of accepted coordinates not yet seen, the termination measure
core. -/
def unseenCount (univ seen : List DFCoord) : Nat :=
  (univ.filter (fun c => decide (c ∉ seen))).length

theorem filter_length_mono {α : Type} (l : List α) (p q : α → Bool)
    (himp : ∀ c, q c = true → p c = true) :
    (l.filter q).length ≤ (l.filter p).length := by
  induction l with
  | nil => exact Nat.le_refl 0
  | cons y t ih =>
    by_cases hq : q y = true
    · rw [List.filter_cons_of_pos hq, List.filter_cons_of_pos (himp y hq),
        List.length_cons, List.length_cons]
      omega
    · rw [List.filter_cons_of_neg hq]
      cases hpy : p y
      · rw [List.filter_cons_of_neg (by simp [hpy])]
        exact ih
      · rw [List.filter_cons_of_pos hpy, List.length_cons]
        omega

theorem filter_length_strict {α : Type} (l : List α) (p q : α → Bool)
    (himp : ∀ c, q c = true → p c = true) (x : α) (hx : x ∈ l)
    (hq : q x = false) (hp : p x = true) :
    (l.filter q).length < (l.filter p).length := by
  induction l with
  | nil => cases hx
  | cons y t ih =>
    rcases List.mem_cons.mp hx with he | he
    · subst he
      have hmono := filter_length_mono t p q himp
      rw [List.filter_cons_of_neg (by simp [hq]), List.filter_cons_of_pos hp,
        List.length_cons]
      omega
    · by_cases hqy : q y = true
      · rw [List.filter_cons_of_pos hqy, List.filter_cons_of_pos (himp y hqy),
          List.length_cons, List.length_cons]
        have := ih he
        omega
      · rw [List.filter_cons_of_neg hqy]
        have := ih he
        cases hpy : p y
        · rw [List.filter_cons_of_neg (by simp [hpy])]
          exact this
        · rw [List.filter_cons_of_pos hpy, List.length_cons]
          omega

theorem unseenCount_insert_lt (univ seen : List DFCoord) (xy : DFCoord)
    (hx : xy ∈ univ) (hns : xy ∉ seen) :
    unseenCount univ (xy :: seen) < unseenCount univ seen := by
  apply filter_length_strict univ
    (fun c => decide (c ∉ seen)) (fun c => decide (c ∉ xy :: seen))
  · intro c hc
    simp only [decide_eq_true_eq] at hc ⊢
    intro hmem
    exact hc (List.mem_cons_of_mem _ hmem)
  · exact hx
  · simp
  · simpa using hns

theorem maybeFlood_length (c : DFCoord) (stack : List DFCoord) (mc : MapCacheM) :
    (maybeFlood c stack mc).length ≤ stack.length + 1 := by
  unfold maybeFlood
  cases mc.testCoord c <;> simp

/-- The neighbour pushes of one collected tile: the four horizontal
neighbours through maybeFlood, then the tile below when LowPassable and
the tile above when HighPassable. -/
def pushNeighbors (mc : MapCacheM) (xy : DFCoord) (stack : List DFCoord) : List DFCoord :=
  let s1 := maybeFlood ⟨xy.x - 1, xy.y, xy.z⟩ stack mc
  let s2 := maybeFlood ⟨xy.x + 1, xy.y, xy.z⟩ s1 mc
  let s3 := maybeFlood ⟨xy.x, xy.y - 1, xy.z⟩ s2 mc
  let s4 := maybeFlood ⟨xy.x, xy.y + 1, xy.z⟩ s3 mc
  let s5 := if mc.lowPassable xy then maybeFlood ⟨xy.x, xy.y, xy.z - 1⟩ s4 mc else s4
  if mc.highPassable xy then maybeFlood ⟨xy.x, xy.y, xy.z + 1⟩ s5 mc else s5

theorem pushNeighbors_length (mc : MapCacheM) (xy : DFCoord) (stack : List DFCoord) :
    (pushNeighbors mc xy stack).length ≤ stack.length + 6 := by
  simp only [pushNeighbors]
  set s1 := maybeFlood ⟨xy.x - 1, xy.y, xy.z⟩ stack mc with hs1
  set s2 := maybeFlood ⟨xy.x + 1, xy.y, xy.z⟩ s1 mc with hs2
  set s3 := maybeFlood ⟨xy.x, xy.y - 1, xy.z⟩ s2 mc with hs3
  set s4 := maybeFlood ⟨xy.x, xy.y + 1, xy.z⟩ s3 mc with hs4
  have h1 : s1.length ≤ stack.length + 1 := by
    rw [hs1]; exact maybeFlood_length _ _ _
  have h2 : s2.length ≤ s1.length + 1 := by
    rw [hs2]; exact maybeFlood_length _ _ _
  have h3 : s3.length ≤ s2.length + 1 := by
    rw [hs3]; exact maybeFlood_length _ _ _
  have h4 : s4.length ≤ s3.length + 1 := by
    rw [hs4]; exact maybeFlood_length _ _ _
  set s5 := if mc.lowPassable xy = true then maybeFlood ⟨xy.x, xy.y, xy.z - 1⟩ s4 mc else s4
    with hs5
  have h5 : s5.length ≤ s4.length + 1 := by
    rw [hs5]
    split
    · exact maybeFlood_length _ _ _
    · omega
  have h6 : (if mc.highPassable xy = true then maybeFlood ⟨xy.x, xy.y, xy.z + 1⟩ s5 mc
      else s5).length ≤ s5.length + 1 := by
    split
    · exact maybeFlood_length _ _ _
    · omega
  omega

/-- FloodBrush::points main loop.  The stack is to_flood, seen the set of
collected coordinates, v the output vector.  A popped coordinate that is
unseen and carries a water designation with nonzero flow_size is
collected, marked seen, and its neighbours are pushed; otherwise the loop
just continues.  The univ argument and its two properties witness that
only finitely many coordinates are accepted, which bounds the loop. -/
def floodLoop (mc : MapCacheM) (univ : List DFCoord)
    (huniv : ∀ c, mc.testCoord c = true → c ∈ univ)
    (hdes : ∀ c, mc.testCoord c = false → (mc.designationAt c).flowSize = 0) :
    List DFCoord → List DFCoord → List DFCoord → List DFCoord
  | [], _, v => v
  | xy :: rest, seen, v =>
    if _hgood : xy ∉ seen ∧ (mc.designationAt xy).flowSize ≠ 0 ∧
        (mc.designationAt xy).liquidType = .Water then
      floodLoop mc univ huniv hdes (pushNeighbors mc xy rest) (xy :: seen) (v ++ [xy])
    else
      floodLoop mc univ huniv hdes rest seen v
termination_by stack seen _ => 7 * unseenCount univ seen + stack.length
decreasing_by
  · have hmem : xy ∈ univ := by
      apply huniv
      cases ht : mc.testCoord xy
      · exact absurd (hdes xy ht) _hgood.2.1
      · rfl
    have hlt := unseenCount_insert_lt univ seen xy hmem _hgood.1
    have hpn := pushNeighbors_length mc xy rest
    simp only [List.length_cons]
    omega
  · simp only [List.length_cons]
    omega

/-- FloodBrush::points: flood from the start coordinate with an empty
seen set and output vector. -/
def points (mc : MapCacheM) (univ : List DFCoord)
    (huniv : ∀ c, mc.testCoord c = true → c ∈ univ)
    (hdes : ∀ c, mc.testCoord c = false → (mc.designationAt c).flowSize = 0)
    (start : DFCoord) : List DFCoord :=
  floodLoop mc univ huniv hdes [start] [] []

end DFBrush

/-! ## Theorems: field resolution and reference equality -/

namespace DFReflect

theorem resolveUnqual_eq_none (post : List TypeInfo) (f : String)
    (h : ∀ t ∈ post, lookupField t.fieldsOwn f = none) :
    resolveUnqual post f = none := by
  induction post with
  | nil => rfl
  | cons t rest ih =>
    have hrest : resolveUnqual rest f = none := ih (fun u hu => h u (by simp [hu]))
    have ht : lookupField t.fieldsOwn f = none := h t (by simp)
    simp [resolveUnqual, hrest, ht]

theorem resolveUnqual_most_base (B : TypeInfo) (mid post : List TypeInfo)
    (f : String) (idB : Nat)
    (hB : lookupField B.fieldsOwn f = some idB)
    (hpost : ∀ t ∈ post, lookupField t.fieldsOwn f = none) :
    resolveUnqual (mid ++ B :: post) f = some idB := by
  induction mid with
  | nil =>
    have hrest := resolveUnqual_eq_none post f hpost
    simp [resolveUnqual, hrest, hB]
  | cons t rest ih =>
    simp only [List.cons_append, resolveUnqual, List.append_eq, ih]

/-- C1: for a struct whose dynamic type D shadows a field f that is also
declared on the base type B (with B the most-base declarer), unqualified
lookup on a D-typed Reference returns B's declaration, while the qualified
key D.name-dot-f returns D's own shadowed declaration. -/
theorem c1_base_field_precedence
    (D B : TypeInfo) (mid post : List TypeInfo) (f : String)
    (idB idD addr : Nat)
    (hB : lookupField B.fieldsOwn f = some idB)
    (hpost : ∀ t ∈ post, lookupField t.fieldsOwn f = none)
    (hD : lookupField D.fieldsOwn f = some idD)
    (hkey : parseKey f = .plain f)
    (hqkey : parseKey (D.name ++ "." ++ f) = .qualified D.name f) :
    getField ⟨D :: (mid ++ B :: post), addr⟩ f = .ok idB ∧
    getField ⟨D :: (mid ++ B :: post), addr⟩ (D.name ++ "." ++ f) = .ok idD := by
  constructor
  · have hchain : resolveUnqual (D :: (mid ++ B :: post)) f = some idB := by
      have hmid := resolveUnqual_most_base B mid post f idB hB hpost
      simp [resolveUnqual, hmid]
    simp [getField, hkey, getFieldK, hchain]
  · have hfind : (D :: (mid ++ B :: post)).find? (fun t => t.name == D.name) = some D := by
      simp [List.find?]
    simp [getField, hqkey, getFieldK, hfind, hD]

/-- Witness for c1_base_field_precedence at a concrete two-type chain. -/
theorem c1_base_field_precedence_witness :
    getField ⟨[⟨"D", [("f", 20)]⟩, ⟨"B", [("f", 10)]⟩], 0⟩ "f" = .ok 10 ∧
    getField ⟨[⟨"D", [("f", 20)]⟩, ⟨"B", [("f", 10)]⟩], 0⟩ "D.f" = .ok 20 :=
  c1_base_field_precedence ⟨"D", [("f", 20)]⟩ ⟨"B", [("f", 10)]⟩ [] [] "f" 10 20 0
    (by decide) (by intro t ht; simp at ht) (by decide) (by decide) (by decide)

/-- C6: reference equality holds iff the two references have the same
resolved dynamic type and the same address; in particular it is reflexive
and symmetric. -/
theorem c6_ref_equality (a b : Ref) :
    (refEquals a b = true ↔ (a.chain = b.chain ∧ a.address = b.address)) ∧
    refEquals a a = true ∧ refEquals a b = refEquals b a := by
  refine ⟨?_, ?_, ?_⟩
  · simp [refEquals]
  · simp [refEquals]
  · apply Bool.eq_iff_iff.mpr
    simp only [refEquals, Bool.and_eq_true, beq_iff_eq]
    constructor
    · rintro ⟨h1, h2⟩; exact ⟨h1.symm, h2.symm⟩
    · rintro ⟨h1, h2⟩; exact ⟨h1.symm, h2.symm⟩

/-- C5: an out-of-range get fails with IndexOutOfRange on a strict
container, while on the relaxed bit/flag-array family it does not fail:
it returns the default value and grows the storage to cover the index,
the growth being visible in the container length afterwards. -/
theorem c5_relaxed_container (c : Container) (i : Nat)
    (hout : c.elems.length ≤ i) :
    (c.family = .vec → containerGet c i = .error .IndexOutOfRange) ∧
    (c.family = .bitArray → ∃ c' : Container,
      containerGet c i = .ok (0, c') ∧ i + 1 ≤ c'.length ∧
      c.length < c'.length) := by
  have hnot : ¬ i < c.elems.length := by omega
  constructor
  · intro hv
    simp [containerGet, hnot, hv]
  · intro hb
    refine ⟨⟨.bitArray, c.elems ++ List.replicate (i + 1 - c.elems.length) 0⟩, ?_, ?_, ?_⟩
    · simp [containerGet, hnot, hb]
    · simp only [Container.length, List.length_append, List.length_replicate]
      omega
    · simp only [Container.length, List.length_append, List.length_replicate]
      omega

/-- Witness for c5_relaxed_container: a length-10 bit array read at index
15 succeeds and afterwards reports length at least 16. -/
theorem c5_relaxed_container_witness :
    (⟨CFamily.bitArray, List.replicate 10 0⟩ : Container).elems.length ≤ 15 ∧
    ((⟨CFamily.bitArray, List.replicate 10 0⟩ : Container).family = .vec →
      containerGet ⟨CFamily.bitArray, List.replicate 10 0⟩ 15 = .error .IndexOutOfRange) ∧
    ((⟨CFamily.bitArray, List.replicate 10 0⟩ : Container).family = .bitArray →
      ∃ c' : Container,
        containerGet ⟨CFamily.bitArray, List.replicate 10 0⟩ 15 = .ok (0, c') ∧
        16 ≤ c'.length ∧
        (⟨CFamily.bitArray, List.replicate 10 0⟩ : Container).length < c'.length) :=
  ⟨by decide, c5_relaxed_container ⟨CFamily.bitArray, List.replicate 10 0⟩ 15 (by decide)⟩

end DFReflect

/-! ## Theorems: job cloning and world job list -/

namespace DFJob

theorem get?_append_cons (p : List GeneralRef) (r : GeneralRef) (s : List GeneralRef) :
    (p ++ r :: s).get? p.length = some r := by
  induction p with
  | nil => rfl
  | cons a t ih => simpa using ih

theorem eraseIdx_append_cons (p : List GeneralRef) (r : GeneralRef) (s : List GeneralRef) :
    (p ++ r :: s).eraseIdx p.length = p ++ s := by
  induction p with
  | nil => rfl
  | cons a t ih => simpa [List.eraseIdx] using ih

theorem set_append_cons (p : List GeneralRef) (r x : GeneralRef) (s : List GeneralRef) :
    (p ++ r :: s).set p.length x = p ++ x :: s := by
  induction p with
  | nil => rfl
  | cons a t ih => simp [List.set, ih]

theorem refsLoop_spec (p s : List GeneralRef) :
    refsLoop (p ++ s) p.length =
      (p.filter (fun r => !r.isUnitWorker)).map GeneralRef.clone ++ s := by
  induction p using List.reverseRecOn generalizing s with
  | nil => simp [refsLoop, GeneralRef.clone]
  | append_singleton p r ih =>
    have hlen : (p ++ [r]).length = p.length + 1 := by simp
    have hassoc : (p ++ [r]) ++ s = p ++ r :: s := by simp
    rw [hlen, hassoc]
    by_cases hw : r.isUnitWorker
    · simp only [refsLoop, get?_append_cons, hw, if_pos, eraseIdx_append_cons]
      rw [ih]
      simp [List.filter_append, hw]
    · simp only [refsLoop, get?_append_cons, hw, if_neg, Bool.false_eq_true,
        not_false_iff, set_append_cons]
      rw [ih]
      simp [List.filter_append, hw, GeneralRef.clone]

/-- C8: the cloned job has a null list link, completion timer -1, empty
items and misc_links, flags zeroed apart from the copied repeat and suspend
bits, references equal to the input's references with every
general_ref_unit_workerst dropped and every other entry replaced by its
clone (hence no unit-worker reference remains), and freshly copied
job_items equal to the input's. -/
theorem c8_clone_job_struct (job : Job) :
    (cloneJobStruct job).listLink = none ∧
    (cloneJobStruct job).completionTimer = -1 ∧
    (cloneJobStruct job).items = [] ∧
    (cloneJobStruct job).miscLinks = [] ∧
    (cloneJobStruct job).flags.otherBits = 0 ∧
    (cloneJobStruct job).flags.rep = job.flags.rep ∧
    (cloneJobStruct job).flags.suspend = job.flags.suspend ∧
    (cloneJobStruct job).references =
      (job.references.filter (fun r => !r.isUnitWorker)).map GeneralRef.clone ∧
    (∀ r ∈ (cloneJobStruct job).references, r.isUnitWorker = false) ∧
    (cloneJobStruct job).jobItems = job.jobItems := by
  have hrefs : refsLoop job.references job.references.length =
      (job.references.filter (fun r => !r.isUnitWorker)).map GeneralRef.clone := by
    simpa using refsLoop_spec job.references []
  refine ⟨rfl, rfl, rfl, rfl, rfl, rfl, rfl, ?_, ?_, ?_⟩
  · simpa [cloneJobStruct] using hrefs
  · intro r hr
    simp only [cloneJobStruct, hrefs, List.mem_map, List.mem_filter] at hr
    obtain ⟨x, ⟨-, hx⟩, hxr⟩ := hr
    subst hxr
    simpa [GeneralRef.clone] using hx
  · simp [cloneJobStruct]

theorem linkJob_mem (l : List Int) (id : Int) :
    ∀ x ∈ (linkJobIntoWorld l id).2, x = id ∨ x ∈ l := by
  induction l with
  | nil =>
    intro x hx
    simp [linkJobIntoWorld] at hx
    exact Or.inl hx
  | cons j rest ih =>
    intro x hx
    by_cases hlt : j < id
    · simp only [linkJobIntoWorld, if_pos hlt, List.mem_cons] at hx
      rcases hx with hx | hx
      · exact Or.inr (by simp [hx])
      · rcases ih x hx with h | h
        · exact Or.inl h
        · exact Or.inr (by simp [h])
    · by_cases heq : j = id
      · simp only [linkJobIntoWorld, if_neg hlt, if_pos heq] at hx
        exact Or.inr hx
      · simp only [linkJobIntoWorld, if_neg hlt, if_neg heq, List.mem_cons] at hx
        rcases hx with hx | hx
        · exact Or.inl hx
        · exact Or.inr (by simpa using hx)

/-- C9: on a strictly increasing world job list, linking a job without a
fresh id returns false and leaves the list unchanged exactly when the id is
already present; when absent it returns true and the result is the input
with exactly the one new id inserted; and the result is strictly increasing
in either case. -/
theorem c9_link_job_into_world (l : List Int) (id : Int)
    (hsort : List.Pairwise (· < ·) l) :
    (((linkJobIntoWorld l id).1 = false ∧ (linkJobIntoWorld l id).2 = l) ↔ id ∈ l) ∧
    (id ∉ l → (linkJobIntoWorld l id).1 = true ∧
      (linkJobIntoWorld l id).2.Perm (id :: l)) ∧
    List.Pairwise (· < ·) (linkJobIntoWorld l id).2 := by
  induction l with
  | nil =>
    refine ⟨?_, ?_, ?_⟩
    · simp [linkJobIntoWorld]
    · intro _; exact ⟨rfl, List.Perm.refl _⟩
    · simp [linkJobIntoWorld]
  | cons j rest ih =>
    rw [List.pairwise_cons] at hsort
    obtain ⟨hj, hrest⟩ := hsort
    obtain ⟨ih1, ih2, ih3⟩ := ih hrest
    by_cases hlt : j < id
    · have hne : id ≠ j := by omega
      have e1 : (linkJobIntoWorld (j :: rest) id).1 = (linkJobIntoWorld rest id).1 := by
        simp [linkJobIntoWorld, hlt]
      have e2 : (linkJobIntoWorld (j :: rest) id).2 = j :: (linkJobIntoWorld rest id).2 := by
        simp [linkJobIntoWorld, hlt]
      refine ⟨?_, ?_, ?_⟩
      · rw [e1, e2, List.mem_cons]
        constructor
        · rintro ⟨h1, h2⟩
          have h2' : (linkJobIntoWorld rest id).2 = rest := by
            injection h2
          exact Or.inr (ih1.mp ⟨h1, h2'⟩)
        · rintro (h | h)
          · exact absurd h hne
          · obtain ⟨h1, h2⟩ := ih1.mpr h
            exact ⟨h1, by rw [h2]⟩
      · intro hnotin
        have hnr : id ∉ rest := fun h => hnotin (List.mem_cons_of_mem _ h)
        obtain ⟨h1, h2⟩ := ih2 hnr
        rw [e1, e2]
        exact ⟨h1, (h2.cons j).trans (List.Perm.swap id j rest)⟩
      · rw [e2, List.pairwise_cons]
        refine ⟨?_, ih3⟩
        intro x hx
        rcases linkJob_mem rest id x hx with h | h
        · omega
        · exact hj x h
    · by_cases heq : j = id
      · subst heq
        have e : linkJobIntoWorld (j :: rest) j = (false, j :: rest) := by
          simp [linkJobIntoWorld, hlt]
        refine ⟨?_, ?_, ?_⟩
        · rw [e]; simp
        · intro hnotin; exact absurd (List.mem_cons_self _ _) hnotin
        · rw [e, List.pairwise_cons]; exact ⟨hj, hrest⟩
      · have hid : id < j := by omega
        have hnotin : id ∉ j :: rest := by
          simp only [List.mem_cons, not_or]
          exact ⟨fun h => heq h.symm, fun h => absurd (hj id h) (by omega)⟩
        have e : linkJobIntoWorld (j :: rest) id = (true, id :: j :: rest) := by
          simp [linkJobIntoWorld, hlt, heq]
        refine ⟨?_, ?_, ?_⟩
        · rw [e]
          constructor
          · rintro ⟨h, -⟩; exact absurd h (by simp)
          · intro h; exact absurd h hnotin
        · intro _
          rw [e]
          exact ⟨rfl, List.Perm.refl _⟩
        · rw [e, List.pairwise_cons]
          constructor
          · intro x hx
            rcases List.mem_cons.mp hx with h | h
            · omega
            · exact lt_trans hid (hj x h)
          · rw [List.pairwise_cons]; exact ⟨hj, hrest⟩

/-- Witness for c9_link_job_into_world on the sorted list 1, 3, 5 with a
fresh id 4. -/
theorem c9_link_job_into_world_witness :
    (((linkJobIntoWorld [1, 3, 5] 4).1 = false ∧
        (linkJobIntoWorld [1, 3, 5] 4).2 = [1, 3, 5]) ↔ (4 : Int) ∈ [1, 3, 5]) ∧
    ((4 : Int) ∉ [1, 3, 5] → (linkJobIntoWorld [1, 3, 5] 4).1 = true ∧
      (linkJobIntoWorld [1, 3, 5] 4).2.Perm (4 :: [1, 3, 5])) ∧
    List.Pairwise (· < ·) (linkJobIntoWorld [1, 3, 5] 4).2 :=
  c9_link_job_into_world [1, 3, 5] 4 (by decide)

end DFJob

/-! ## Theorems: recursive assignment engine, basic memory lemmas -/

namespace DFAssign

theorem alookup_areplace_same {κ α : Type} [DecidableEq κ]
    (l : List (κ × α)) (k : κ) (x : α) (h : (alookup l k).isSome = true) :
    alookup (areplace l k x) k = some x := by
  induction l with
  | nil => simp [alookup] at h
  | cons p t ih =>
    obtain ⟨pk, pv⟩ := p
    by_cases hk : pk = k
    · simp [areplace, alookup, hk]
    · simp only [alookup, if_neg hk] at h
      simp [areplace, alookup, hk, ih h]

theorem alookup_areplace_ne {κ α : Type} [DecidableEq κ]
    (l : List (κ × α)) (k q : κ) (x : α) (h : q ≠ k) :
    alookup (areplace l k x) q = alookup l q := by
  induction l with
  | nil => rfl
  | cons p t ih =>
    obtain ⟨pk, pv⟩ := p
    by_cases hk : pk = k
    · subst hk
      simp [areplace, alookup, if_neg (Ne.symm h)]
    · by_cases hq : pk = q
      · simp [areplace, alookup, hk, hq, h]
      · simp [areplace, alookup, hk, hq, ih]

theorem areplace_cancel {κ α : Type} [DecidableEq κ]
    (l : List (κ × α)) (k : κ) (x : α) (h : alookup l k = some x) :
    areplace l k x = l := by
  induction l with
  | nil => rfl
  | cons p t ih =>
    obtain ⟨pk, pv⟩ := p
    by_cases hk : pk = k
    · simp only [alookup, if_pos hk] at h
      cases h
      simp [areplace, hk]
    · simp only [alookup, if_neg hk] at h
      simp [areplace, hk, ih h]

theorem areplace_areplace {κ α : Type} [DecidableEq κ]
    (l : List (κ × α)) (k : κ) (x y : α) :
    areplace (areplace l k x) k y = areplace l k y := by
  induction l with
  | nil => rfl
  | cons p t ih =>
    obtain ⟨pk, pv⟩ := p
    by_cases hk : pk = k
    · simp [areplace, hk]
    · simp [areplace, hk, ih]

theorem areplace_missing {κ α : Type} [DecidableEq κ]
    (l : List (κ × α)) (k : κ) (x : α) (h : alookup l k = none) :
    areplace l k x = l := by
  induction l with
  | nil => rfl
  | cons p t ih =>
    obtain ⟨pk, pv⟩ := p
    by_cases hk : pk = k
    · simp [alookup, hk] at h
    · simp only [alookup, if_neg hk] at h
      simp [areplace, hk, ih h]

theorem alookup_areplace_isSome {κ α : Type} [DecidableEq κ]
    (l : List (κ × α)) (k q : κ) (x : α) :
    (alookup (areplace l k x) q).isSome = (alookup l q).isSome := by
  by_cases hq : q = k
  · subst hq
    cases h : alookup l q with
    | none => rw [areplace_missing l q x h, h]
    | some y =>
      rw [alookup_areplace_same l q x (by simp [h])]
      rfl
  · rw [alookup_areplace_ne l k q x hq]

theorem setCell_nextAddr (m : Mem) (a : Nat) (f : String) (c : Cell) :
    (m.setCell a f c).nextAddr = m.nextAddr := by
  unfold Mem.setCell
  cases m.getObj a <;> simp

theorem getObj_setCell_isSome (m : Mem) (a : Nat) (f : String) (c : Cell) (b : Nat) :
    ((m.setCell a f c).getObj b).isSome = (m.getObj b).isSome := by
  unfold Mem.setCell
  cases h : m.getObj a with
  | none => rfl
  | some o =>
    simp only [Mem.getObj]
    exact alookup_areplace_isSome _ _ _ _

theorem getObj_setCell_ne (m : Mem) (a : Nat) (f : String) (c : Cell) (b : Nat)
    (h : b ≠ a) : (m.setCell a f c).getObj b = m.getObj b := by
  unfold Mem.setCell
  cases ho : m.getObj a with
  | none => rfl
  | some o =>
    simp only [Mem.getObj]
    exact alookup_areplace_ne _ _ _ _ h

theorem heap_isSome_of_getObj (m : Mem) (a : Nat) (o : Obj)
    (ho : m.getObj a = some o) : (alookup m.heap a).isSome = true := by
  have hlk : alookup m.heap a = some o := ho
  simp [hlk]

theorem getCell_none_obj (m : Mem) (a : Nat) (f : String)
    (ho : m.getObj a = none) : m.getCell a f = none := by
  simp [Mem.getCell, ho]

theorem getCell_some_obj (m : Mem) (a : Nat) (f : String) (o : Obj)
    (ho : m.getObj a = some o) : m.getCell a f = alookup o.cells f := by
  simp [Mem.getCell, ho]

theorem setCell_none_obj (m : Mem) (a : Nat) (f : String) (c : Cell)
    (ho : m.getObj a = none) : m.setCell a f c = m := by
  simp [Mem.setCell, ho]

theorem setCell_some_obj (m : Mem) (a : Nat) (f : String) (c : Cell) (o : Obj)
    (ho : m.getObj a = some o) :
    m.setCell a f c =
      { m with heap := areplace m.heap a ⟨o.typeName, areplace o.cells f c⟩ } := by
  simp [Mem.setCell, ho]

theorem getObj_after_setCell (m : Mem) (a : Nat) (f : String) (c : Cell) (o : Obj)
    (ho : m.getObj a = some o) :
    (m.setCell a f c).getObj a = some ⟨o.typeName, areplace o.cells f c⟩ := by
  rw [setCell_some_obj m a f c o ho]
  show alookup (areplace m.heap a _) a = _
  exact alookup_areplace_same m.heap a _ (heap_isSome_of_getObj m a o ho)

theorem getCell_setCell_same (m : Mem) (a : Nat) (f : String) (c c0 : Cell)
    (h : m.getCell a f = some c0) :
    (m.setCell a f c).getCell a f = some c := by
  cases ho : m.getObj a with
  | none => rw [getCell_none_obj m a f ho] at h; cases h
  | some o =>
    have h' : alookup o.cells f = some c0 := (getCell_some_obj m a f o ho).symm.trans h
    rw [getCell_some_obj _ a f _ (getObj_after_setCell m a f c o ho)]
    exact alookup_areplace_same o.cells f c (by simp [h'])

theorem getCell_setCell_ne (m : Mem) (a : Nat) (f : String) (c : Cell)
    (b : Nat) (g : String) (h : b ≠ a ∨ g ≠ f) :
    (m.setCell a f c).getCell b g = m.getCell b g := by
  rcases h with h | h
  · unfold Mem.getCell
    rw [getObj_setCell_ne m a f c b h]
  · by_cases hb : b = a
    · subst hb
      cases ho : m.getObj b with
      | none => rw [setCell_none_obj m b f c ho]
      | some o =>
        rw [getCell_some_obj _ b g _ (getObj_after_setCell m b f c o ho),
          getCell_some_obj m b g o ho]
        exact alookup_areplace_ne o.cells f g c h
    · unfold Mem.getCell
      rw [getObj_setCell_ne m a f c b hb]

theorem setCell_cancel (m : Mem) (a : Nat) (f : String) (c : Cell)
    (h : m.getCell a f = some c) : m.setCell a f c = m := by
  cases ho : m.getObj a with
  | none => exact setCell_none_obj m a f c ho
  | some o =>
    have h' : alookup o.cells f = some c := (getCell_some_obj m a f o ho).symm.trans h
    rw [setCell_some_obj m a f c o ho, areplace_cancel o.cells f c h']
    have hobj : (⟨o.typeName, o.cells⟩ : Obj) = o := rfl
    rw [hobj, areplace_cancel m.heap a o ho]

theorem setCell_setCell (m : Mem) (a : Nat) (f : String) (c c' : Cell) :
    (m.setCell a f c).setCell a f c' = m.setCell a f c' := by
  cases ho : m.getObj a with
  | none =>
    rw [setCell_none_obj m a f c ho, setCell_none_obj m a f c' ho]
  | some o =>
    rw [setCell_some_obj _ a f c' _ (getObj_after_setCell m a f c o ho),
      setCell_some_obj m a f c o ho, setCell_some_obj m a f c' o ho]
    simp only [areplace_areplace]

end DFAssign

/-! ## Theorems: engine unfolding equations -/

namespace DFAssign

theorem assignValue_tree_delegate (sch : Schema) (m : Mem) (t : Target)
    (es : TEntries) (av : TVal) (h : es.lookupStr "assign" = some av) :
    assignValue sch m t (.tree es) = assignValue sch m t av := by
  simp only [assignValue]
  split
  · rename_i heq
    rw [h] at heq
    cases heq
    rfl
  · rename_i heq
    rw [h] at heq
    cases heq

theorem assignValue_tree_noassign (sch : Schema) (m : Mem) (t : Target)
    (es : TEntries) (h : es.lookupStr "assign" = none) :
    assignValue sch m t (.tree es) = assignTree sch m t es := by
  simp only [assignValue]
  split
  · rename_i heq
    rw [h] at heq
    cases heq
  · rfl

end DFAssign

/-! ## Theorems: null pointer semantics (claim C2) -/

namespace DFAssign

theorem alookup_map_snd {κ α β : Type} [DecidableEq κ]
    (l : List (κ × α)) (g : α → β) (q : κ) :
    alookup (l.map (fun p => (p.1, g p.2))) q = (alookup l q).map g := by
  induction l with
  | nil => rfl
  | cons p t ih =>
    obtain ⟨pk, pv⟩ := p
    by_cases hk : pk = q
    · simp [alookup, hk]
    · simp [alookup, hk, ih]

theorem alookup_mem {κ α : Type} [DecidableEq κ]
    (l : List (κ × α)) (k : κ) (x : α) (h : alookup l k = some x) :
    (k, x) ∈ l := by
  induction l with
  | nil => cases h
  | cons p t ih =>
    obtain ⟨pk, pv⟩ := p
    by_cases hk : pk = k
    · subst hk
      simp only [alookup, if_pos rfl] at h
      cases h
      simp
    · simp only [alookup, if_neg hk] at h
      simp [ih h]

theorem defaultObj_cell (d : StructD) (s : String) (ft : FieldT)
    (h : alookup d.fields s = some ft) :
    alookup (defaultObj d).cells s = some (defaultCell ft) := by
  show alookup (d.fields.map (fun p => (p.1, defaultCell p.2))) s = _
  rw [alookup_map_snd d.fields defaultCell s, h]
  rfl

/-- C2: for a null pointer field, a read yields the language-level absence
value and no error; assigning a nested tree whose new entry is absent or
false fails with NullPointerAssignment; and assigning the tree with
new = true and x = 1 allocates a default instance of the pointer's static
target type at the next fresh address, binds it, sets the pointee's x
field to 1, and leaves the pointer non-null. -/
theorem c2_null_pointer_semantics
    (sch : Schema) (m : Mem) (a : Nat) (f ty : String)
    (es : TEntries) (d : StructD)
    (hc : m.getCell a f = some (.cPtr ty none))
    (hwf : m.wf) :
    getFieldVal m a f = .ok .rNil ∧
    (es.lookupStr "assign" = none →
      (es.lookupStr "new" = none ∨ es.lookupStr "new" = some (.bool false)) →
      assignValue sch m (.fld a f) (.tree es) = .error (.NullPointerAssignment, m)) ∧
    (Schema.lookupType sch ty = some d →
      alookup d.fields "x" = some .fInt →
      ∃ m' : Mem,
        assignValue sch m (.fld a f)
          (.tree (.cons (.str "new") (.bool true)
            (.cons (.str "x") (.int 1) .nil))) = .ok m' ∧
        m'.getCell a f = some (.cPtr ty (some m.nextAddr)) ∧
        m'.getCell m.nextAddr "x" = some (.cInt 1)) := by
  have hobj : (m.getObj a).isSome = true := by
    unfold Mem.getCell at hc
    cases ho : m.getObj a with
    | none => rw [ho] at hc; cases hc
    | some o => rfl
  obtain ⟨o, ho⟩ := Option.isSome_iff_exists.mp hobj
  have haNE : a ≠ m.nextAddr := by
    have hlt : a < m.nextAddr := hwf (a, o) (alookup_mem m.heap a o ho)
    omega
  refine ⟨?_, ?_, ?_⟩
  · simp [getFieldVal, hc]
  · intro h1 h2
    rw [assignValue_tree_noassign sch m (.fld a f) es h1]
    rcases h2 with h2 | h2 <;> simp [assignTree, hc, h2]
  · intro hty hx
    set es0 : TEntries :=
      .cons (.str "new") (.bool true) (.cons (.str "x") (.int 1) .nil) with hes0
    have h1 : es0.lookupStr "assign" = none := by
      simp [hes0, TEntries.lookupStr]
    have h2 : es0.lookupStr "new" = some (.bool true) := by
      simp [hes0, TEntries.lookupStr]
    rw [assignValue_tree_noassign sch m (.fld a f) es0 h1]
    -- the memory after allocation and pointer binding
    have halloc1 : (m.alloc d).1 = ⟨(m.nextAddr, defaultObj d) :: m.heap, m.nextAddr + 1⟩ := rfl
    have halloc2 : (m.alloc d).2 = m.nextAddr := rfl
    set mA : Mem := ⟨(m.nextAddr, defaultObj d) :: m.heap, m.nextAddr + 1⟩ with hmA
    set m2 : Mem := mA.setCell a f (.cPtr ty (some m.nextAddr)) with hm2
    have hstep : assignTree sch m (.fld a f) es0 =
        assignStructEntries sch m2 m.nextAddr es0 := by
      simp [assignTree, hc, h2, hty, halloc1, halloc2, hm2]
    rw [hstep]
    -- facts about mA and m2
    have hA_obj : mA.getObj m.nextAddr = some (defaultObj d) := by
      show alookup ((m.nextAddr, defaultObj d) :: m.heap) m.nextAddr = _
      simp [alookup]
    have hA_other : ∀ g, mA.getCell a g = m.getCell a g := by
      intro g
      show (match alookup ((m.nextAddr, defaultObj d) :: m.heap) a with
        | none => none
        | some o => alookup o.cells g) = m.getCell a g
      simp only [alookup, if_neg (Ne.symm haNE)]
      rfl
    have hA_cell : mA.getCell m.nextAddr "x" = some (.cInt 0) := by
      rw [getCell_some_obj mA m.nextAddr "x" _ hA_obj]
      exact defaultObj_cell d "x" .fInt hx
    have hm2_ptr : m2.getCell a f = some (.cPtr ty (some m.nextAddr)) := by
      rw [hm2]
      exact getCell_setCell_same mA a f _ _ ((hA_other f).trans hc)
    have hm2_x : m2.getCell m.nextAddr "x" = some (.cInt 0) := by
      rw [hm2, getCell_setCell_ne mA a f _ m.nextAddr "x" (Or.inl (Ne.symm haNE))]
      exact hA_cell
    -- walk the two entries
    set m3 : Mem := m2.setCell m.nextAddr "x" (.cInt 1) with hm3
    have hwalk : assignStructEntries sch m2 m.nextAddr es0 = .ok m3 := by
      simp [hes0, assignStructEntries, assignValue, hm2_x, hm3]
    refine ⟨m3, hwalk, ?_, ?_⟩
    · rw [hm3, getCell_setCell_ne m2 m.nextAddr "x" _ a f (Or.inl haNE)]
      exact hm2_ptr
    · rw [hm3]
      exact getCell_setCell_same m2 m.nextAddr "x" _ _ hm2_x

end DFAssign

namespace DFAssign

/-- Witness for c2_null_pointer_semantics: a one-object memory whose field
p is a null pointer to type T, with the empty tree for the failing branch
and the schema declaring T with an int field x. -/
theorem c2_null_pointer_semantics_witness :
    (⟨[(0, ⟨"S", [("p", Cell.cPtr "T" none)]⟩)], 1⟩ : Mem).getCell 0 "p" =
      some (.cPtr "T" none) ∧
    Mem.wf ⟨[(0, ⟨"S", [("p", Cell.cPtr "T" none)]⟩)], 1⟩ ∧
    (getFieldVal ⟨[(0, ⟨"S", [("p", Cell.cPtr "T" none)]⟩)], 1⟩ 0 "p" = .ok .rNil ∧
     (TEntries.nil.lookupStr "assign" = none →
       (TEntries.nil.lookupStr "new" = none ∨
        TEntries.nil.lookupStr "new" = some (.bool false)) →
       assignValue [⟨"T", [("x", FieldT.fInt)]⟩]
         ⟨[(0, ⟨"S", [("p", Cell.cPtr "T" none)]⟩)], 1⟩ (.fld 0 "p") (.tree .nil) =
         .error (.NullPointerAssignment, ⟨[(0, ⟨"S", [("p", Cell.cPtr "T" none)]⟩)], 1⟩)) ∧
     (Schema.lookupType [⟨"T", [("x", FieldT.fInt)]⟩] "T" = some ⟨"T", [("x", FieldT.fInt)]⟩ →
       alookup (⟨"T", [("x", FieldT.fInt)]⟩ : StructD).fields "x" = some .fInt →
       ∃ m' : Mem,
         assignValue [⟨"T", [("x", FieldT.fInt)]⟩]
           ⟨[(0, ⟨"S", [("p", Cell.cPtr "T" none)]⟩)], 1⟩ (.fld 0 "p")
           (.tree (.cons (.str "new") (.bool true)
             (.cons (.str "x") (.int 1) .nil))) = .ok m' ∧
         m'.getCell 0 "p" = some (.cPtr "T" (some 1)) ∧
         m'.getCell 1 "x" = some (.cInt 1))) :=
  ⟨by decide, by unfold Mem.wf; decide,
    c2_null_pointer_semantics [⟨"T", [("x", FieldT.fInt)]⟩]
      ⟨[(0, ⟨"S", [("p", Cell.cPtr "T" none)]⟩)], 1⟩ 0 "p" "T" .nil
      ⟨"T", [("x", FieldT.fInt)]⟩ (by decide) (by unfold Mem.wf; decide)⟩

end DFAssign

/-! ## Theorems: container assignment (claim C3) -/

namespace DFAssign

theorem resizeList_length (l : List Int) (n : Nat) :
    (resizeList l n).length = n := by
  simp only [resizeList, List.length_append, List.length_take, List.length_replicate]
  omega

theorem writeSeq_ok (a : Nat) (f : String) (es : TEntries) (vals : Nat → Int) :
    ∀ (k i : Nat) (m : Mem) (L : List Int),
      (∀ j, i ≤ j → j < i + k → es.lookupNum (j + 1) = some (.int (vals j))) →
      m.getCell a f = some (.cCont L) →
      i + k ≤ L.length →
      ∃ L', writeSeq a f es m i k = .ok (m.setCell a f (.cCont L')) ∧
        L'.length = L.length ∧
        (∀ j, L'.get? j = if i ≤ j ∧ j < i + k then some (vals j) else L.get? j) := by
  intro k
  induction k with
  | zero =>
    intro i m L hv hc hlen
    refine ⟨L, ?_, rfl, ?_⟩
    · show Except.ok m = _
      rw [setCell_cancel m a f (.cCont L) hc]
    · intro j
      rw [if_neg (by omega)]
  | succ k ih =>
    intro i m L hv hc hlen
    have hvi : es.lookupNum (i + 1) = some (.int (vals i)) := hv i le_rfl (by omega)
    have hset : (m.setCell a f (.cCont (L.set i (vals i)))).getCell a f =
        some (.cCont (L.set i (vals i))) :=
      getCell_setCell_same m a f _ _ hc
    obtain ⟨L', h1, h2, h3⟩ := ih (i + 1) (m.setCell a f (.cCont (L.set i (vals i))))
      (L.set i (vals i))
      (fun j hj1 hj2 => hv j (by omega) (by omega)) hset
      (by rw [List.length_set]; omega)
    refine ⟨L', ?_, ?_, ?_⟩
    · show writeSeq a f es m i (k + 1) = _
      simp only [writeSeq, hvi, hc]
      rw [h1, setCell_setCell]
    · rw [h2, List.length_set]
    · intro j
      rcases Nat.lt_trichotomy j i with hj | hj | hj
      · rw [h3 j, if_neg (by omega), if_neg (by omega),
          List.get?_set_ne _ _ (by omega)]
      · subst hj
        rw [h3 j, if_neg (by omega), if_pos (by omega)]
        rw [List.get?_set_eq_of_lt _ (show j < L.length by omega)]
      · by_cases hj2 : j < i + (k + 1)
        · rw [h3 j, if_pos (by omega), if_pos (by omega)]
        · rw [h3 j, if_neg (by omega), if_neg (by omega),
            List.get?_set_ne _ _ (by omega)]

theorem keyedWrites_final (a : Nat) (f : String) :
    ∀ (es : TEntries) (m : Mem) (L : List Int),
      m.getCell a f = some (.cCont L) →
      ∃ L', (finalMem (keyedWrites a f m es)).getCell a f = some (.cCont L') ∧
        L'.length = L.length ∧
        (∀ j, es.lookupNum j = none → L'.get? j = L.get? j)
  | .nil, m, L, hc => by
    refine ⟨L, ?_, rfl, fun j _ => rfl⟩
    simp only [keyedWrites, finalMem]
    exact hc
  | .cons (.str s) v t, m, L, hc => by
    by_cases hs : s = "resize" ∨ s = "assign"
    · obtain ⟨L', h1, h2, h3⟩ := keyedWrites_final a f t m L hc
      refine ⟨L', ?_, h2, ?_⟩
      · simp only [keyedWrites, if_pos hs]
        exact h1
      · intro j hj
        exact h3 j (by simpa [TEntries.lookupNum] using hj)
    · refine ⟨L, ?_, rfl, fun j _ => rfl⟩
      simp only [keyedWrites, if_neg hs, finalMem]
      exact hc
  | .cons (.num n) v t, m, L, hc => by
    by_cases hn : n < L.length
    · cases v with
      | int vv =>
        have hset : (m.setCell a f (.cCont (L.set n vv))).getCell a f =
            some (.cCont (L.set n vv)) := getCell_setCell_same m a f _ _ hc
        obtain ⟨L', h1, h2, h3⟩ := keyedWrites_final a f t
          (m.setCell a f (.cCont (L.set n vv))) (L.set n vv) hset
        refine ⟨L', ?_, by rw [h2, List.length_set], ?_⟩
        · simp only [keyedWrites, hc, if_pos hn]
          exact h1
        · intro j hj
          have hjn : ¬ n = j := by
            intro he
            simp [TEntries.lookupNum, he] at hj
          have hjt : t.lookupNum j = none := by
            simpa [TEntries.lookupNum, hjn] using hj
          rw [h3 j hjt, List.get?_set_ne _ _ hjn]
      | bool b =>
        refine ⟨L, ?_, rfl, fun j _ => rfl⟩
        simp only [keyedWrites, hc, if_pos hn, finalMem]
      | null =>
        refine ⟨L, ?_, rfl, fun j _ => rfl⟩
        simp only [keyedWrites, hc, if_pos hn, finalMem]
      | typeName s =>
        refine ⟨L, ?_, rfl, fun j _ => rfl⟩
        simp only [keyedWrites, hc, if_pos hn, finalMem]
      | tree es2 =>
        refine ⟨L, ?_, rfl, fun j _ => rfl⟩
        simp only [keyedWrites, hc, if_pos hn, finalMem]
    · refine ⟨L, ?_, rfl, fun j _ => rfl⟩
      simp only [keyedWrites, hc, if_neg hn, finalMem]

end DFAssign

namespace DFAssign

/-- C3: for a container target of recursive assignment with no assign
entry: (i) with no resize entry either, the tree is a plain 1-based list,
the container is resized to the list length and the elements assigned in
order; (ii) with resize = true, the container ends (successfully or not)
with its length equal to the maximum numeric key present; (iii) with
resize = false, the length is unchanged and only explicitly keyed elements
are mutated. -/
theorem c3_container_assignment
    (sch : Schema) (m : Mem) (a : Nat) (f : String) (elems : List Int)
    (es : TEntries) (vals : Nat → Int)
    (hc : m.getCell a f = some (.cCont elems))
    (ha : es.lookupStr "assign" = none) :
    (es.lookupStr "resize" = none →
      (∀ j, j < es.luaLen → es.lookupNum (j + 1) = some (.int (vals j))) →
      ∃ (m' : Mem) (L' : List Int),
        assignValue sch m (.fld a f) (.tree es) = .ok m' ∧
        m'.getCell a f = some (.cCont L') ∧
        L'.length = es.luaLen ∧
        (∀ j, j < es.luaLen → L'.get? j = some (vals j))) ∧
    (es.lookupStr "resize" = some (.bool true) →
      ∃ L' : List Int,
        (finalMem (assignValue sch m (.fld a f) (.tree es))).getCell a f =
          some (.cCont L') ∧ L'.length = es.maxNumKey) ∧
    (es.lookupStr "resize" = some (.bool false) →
      ∃ L' : List Int,
        (finalMem (assignValue sch m (.fld a f) (.tree es))).getCell a f =
          some (.cCont L') ∧ L'.length = elems.length ∧
        (∀ j, es.lookupNum j = none → L'.get? j = elems.get? j)) := by
  have hdisp : assignValue sch m (.fld a f) (.tree es) = contAssign a f m elems es := by
    rw [assignValue_tree_noassign sch m (.fld a f) es ha]
    simp [assignTree, hc]
  refine ⟨?_, ?_, ?_⟩
  · intro hr hv
    set L0 : List Int := resizeList elems es.luaLen with hL0
    have hL0len : L0.length = es.luaLen := resizeList_length elems es.luaLen
    have hset : (m.setCell a f (.cCont L0)).getCell a f = some (.cCont L0) :=
      getCell_setCell_same m a f _ _ hc
    obtain ⟨L', h1, h2, h3⟩ := writeSeq_ok a f es vals es.luaLen 0
      (m.setCell a f (.cCont L0)) L0
      (fun j hj1 hj2 => hv j (by omega)) hset (by omega)
    refine ⟨m.setCell a f (.cCont L'), L', ?_, ?_, ?_, ?_⟩
    · rw [hdisp]
      simp only [contAssign, hr]
      rw [h1, setCell_setCell]
    · exact getCell_setCell_same m a f _ _ hc
    · rw [h2, hL0len]
    · intro j hj
      rw [h3 j, if_pos (by omega)]
  · intro hr
    set L0 : List Int := resizeList elems es.maxNumKey with hL0
    have hset : (m.setCell a f (.cCont L0)).getCell a f = some (.cCont L0) :=
      getCell_setCell_same m a f _ _ hc
    obtain ⟨L', h1, h2, h3⟩ := keyedWrites_final a f es (m.setCell a f (.cCont L0)) L0 hset
    refine ⟨L', ?_, ?_⟩
    · rw [hdisp]
      simp only [contAssign, hr]
      exact h1
    · rw [h2, hL0]
      exact resizeList_length elems es.maxNumKey
  · intro hr
    obtain ⟨L', h1, h2, h3⟩ := keyedWrites_final a f es m elems hc
    refine ⟨L', ?_, h2, h3⟩
    rw [hdisp]
    simp only [contAssign, hr]
    exact h1

/-- Witness for c3_container_assignment: the container field c of length 5,
with the tree resize = false, key 2 set to 99. -/
theorem c3_container_assignment_witness :
    (⟨[(0, ⟨"S", [("c", Cell.cCont [1, 2, 3, 4, 5])]⟩)], 1⟩ : Mem).getCell 0 "c" =
      some (.cCont [1, 2, 3, 4, 5]) ∧
    (TEntries.cons (.str "resize") (.bool false)
      (.cons (.num 2) (.int 99) .nil)).lookupStr "assign" = none ∧
    ((TEntries.cons (.str "resize") (.bool false)
        (.cons (.num 2) (.int 99) .nil)).lookupStr "resize" = some (.bool false) →
      ∃ L' : List Int,
        (finalMem (assignValue []
          ⟨[(0, ⟨"S", [("c", Cell.cCont [1, 2, 3, 4, 5])]⟩)], 1⟩ (.fld 0 "c")
          (.tree (.cons (.str "resize") (.bool false)
            (.cons (.num 2) (.int 99) .nil))))).getCell 0 "c" =
          some (.cCont L') ∧ L'.length = ([1, 2, 3, 4, 5] : List Int).length ∧
        (∀ j, (TEntries.cons (.str "resize") (.bool false)
            (.cons (.num 2) (.int 99) .nil)).lookupNum j = none →
          L'.get? j = ([1, 2, 3, 4, 5] : List Int).get? j)) :=
  ⟨by decide, rfl,
    (c3_container_assignment [] ⟨[(0, ⟨"S", [("c", Cell.cCont [1, 2, 3, 4, 5])]⟩)], 1⟩
      0 "c" [1, 2, 3, 4, 5]
      (.cons (.str "resize") (.bool false) (.cons (.num 2) (.int 99) .nil))
      (fun _ => 0) (by decide) rfl).2.2⟩

end DFAssign

/-! ## Theorems: failure without rollback (claim C4) -/

namespace DFAssign

theorem alloc_dom (m : Mem) (d : StructD) (b : Nat)
    (hb : (m.getObj b).isSome = true) :
    (((m.alloc d).1).getObj b).isSome = true := by
  show (alookup ((m.nextAddr, defaultObj d) :: m.heap) b).isSome = true
  by_cases hA : m.nextAddr = b
  · simp [alookup, hA]
  · simpa [alookup, hA] using hb

theorem writeSeq_dom (a : Nat) (f : String) (es : TEntries) :
    ∀ (k i : Nat) (m : Mem) (b : Nat),
      (m.getObj b).isSome = true →
      ((finalMem (writeSeq a f es m i k)).getObj b).isSome = true := by
  intro k
  induction k with
  | zero =>
    intro i m b hb
    simpa [writeSeq, finalMem] using hb
  | succ k ih =>
    intro i m b hb
    cases hl : es.lookupNum (i + 1) with
    | none => simpa [writeSeq, hl, finalMem] using hb
    | some v =>
      cases v with
      | int vv =>
        cases hg : m.getCell a f with
        | none => simpa [writeSeq, hl, hg, finalMem] using hb
        | some cell =>
          cases cell with
          | cCont el =>
            have hb2 : ((m.setCell a f (.cCont (el.set i vv))).getObj b).isSome = true := by
              rw [getObj_setCell_isSome]
              exact hb
            simpa [writeSeq, hl, hg] using ih (i + 1) _ b hb2
          | cInt w => simpa [writeSeq, hl, hg, finalMem] using hb
          | cPtr ty tg => simpa [writeSeq, hl, hg, finalMem] using hb
      | bool bb => simpa [writeSeq, hl, finalMem] using hb
      | null => simpa [writeSeq, hl, finalMem] using hb
      | typeName s => simpa [writeSeq, hl, finalMem] using hb
      | tree es2 => simpa [writeSeq, hl, finalMem] using hb

theorem keyedWrites_dom (a : Nat) (f : String) :
    ∀ (es : TEntries) (m : Mem) (b : Nat),
      (m.getObj b).isSome = true →
      ((finalMem (keyedWrites a f m es)).getObj b).isSome = true
  | .nil, m, b, hb => by simpa [keyedWrites, finalMem] using hb
  | .cons (.str s) v t, m, b, hb => by
    by_cases hs : s = "resize" ∨ s = "assign"
    · simpa [keyedWrites, hs] using keyedWrites_dom a f t m b hb
    · simpa [keyedWrites, hs, finalMem] using hb
  | .cons (.num n) v t, m, b, hb => by
    cases hg : m.getCell a f with
    | none => simpa [keyedWrites, hg, finalMem] using hb
    | some cell =>
      cases cell with
      | cCont el =>
        by_cases hn : n < el.length
        · cases v with
          | int vv =>
            have hb2 : ((m.setCell a f (.cCont (el.set n vv))).getObj b).isSome = true := by
              rw [getObj_setCell_isSome]
              exact hb
            simpa [keyedWrites, hg, hn] using keyedWrites_dom a f t _ b hb2
          | bool bb => simpa [keyedWrites, hg, hn, finalMem] using hb
          | null => simpa [keyedWrites, hg, hn, finalMem] using hb
          | typeName s => simpa [keyedWrites, hg, hn, finalMem] using hb
          | tree es2 => simpa [keyedWrites, hg, hn, finalMem] using hb
        · simpa [keyedWrites, hg, hn, finalMem] using hb
      | cInt w => simpa [keyedWrites, hg, finalMem] using hb
      | cPtr ty tg => simpa [keyedWrites, hg, finalMem] using hb

theorem contAssign_dom (a : Nat) (f : String) (m : Mem) (elems : List Int)
    (es : TEntries) (b : Nat) (hb : (m.getObj b).isSome = true) :
    ((finalMem (contAssign a f m elems es)).getObj b).isSome = true := by
  cases hr : es.lookupStr "resize" with
  | none =>
    have hb2 : ((m.setCell a f (.cCont (resizeList elems es.luaLen))).getObj b).isSome = true := by
      rw [getObj_setCell_isSome]; exact hb
    simpa [contAssign, hr] using writeSeq_dom a f es es.luaLen 0 _ b hb2
  | some rv =>
    cases rv with
    | bool bb =>
      cases bb with
      | false => simpa [contAssign, hr] using keyedWrites_dom a f es m b hb
      | true =>
        have hb2 : ((m.setCell a f (.cCont (resizeList elems es.maxNumKey))).getObj b).isSome = true := by
          rw [getObj_setCell_isSome]; exact hb
        simpa [contAssign, hr] using keyedWrites_dom a f es _ b hb2
    | int c =>
      by_cases hc : c < 0
      · simpa [contAssign, hr, hc, finalMem] using hb
      · have hb2 : ((m.setCell a f (.cCont (resizeList elems c.toNat))).getObj b).isSome = true := by
          rw [getObj_setCell_isSome]; exact hb
        simpa [contAssign, hr, hc] using keyedWrites_dom a f es _ b hb2
    | null => simpa [contAssign, hr, finalMem] using hb
    | typeName s => simpa [contAssign, hr, finalMem] using hb
    | tree es2 => simpa [contAssign, hr, finalMem] using hb

theorem assignStructEntries_dom (sch : Schema) :
    ∀ (m : Mem) (a : Nat) (es : TEntries) (b : Nat),
      (m.getObj b).isSome = true →
      ((finalMem (assignStructEntries sch m a es)).getObj b).isSome = true := by
  have main : ∀ (m : Mem) (a : Nat) (es : TEntries),
      ∀ b, (m.getObj b).isSome = true →
        ((finalMem (assignStructEntries sch m a es)).getObj b).isSome = true := by
    refine assignStructEntries.induct sch
      (fun m t v => ∀ b, (m.getObj b).isSome = true →
        ((finalMem (assignValue sch m t v)).getObj b).isSome = true)
      (fun m t es => ∀ b, (m.getObj b).isSome = true →
        ((finalMem (assignTree sch m t es)).getObj b).isSome = true)
      (fun m a es => ∀ b, (m.getObj b).isSome = true →
        ((finalMem (assignStructEntries sch m a es)).getObj b).isSome = true)
      ?_ ?_ ?_ ?_ ?_ ?_ ?_ ?_ ?_ ?_ ?_ ?_ ?_ ?_ ?_ ?_ ?_ ?_ ?_ ?_ ?_ ?_ ?_ ?_ ?_ ?_ ?_ ?_ ?_ ?_
    · intro m t es av hl ih b hb
      rw [assignValue_tree_delegate sch m t es av hl]
      exact ih b hb
    · intro m t es hl ih b hb
      rw [assignValue_tree_noassign sch m t es hl]
      exact ih b hb
    · intro m n a f v hc b hb
      simp only [assignValue, hc, finalMem]
      rw [getObj_setCell_isSome]
      exact hb
    · intro m n a f val hne hc b hb
      cases val with
      | cInt v => exact (hne v rfl).elim
      | cPtr ty tg => simpa [assignValue, hc, finalMem] using hb
      | cCont el => simpa [assignValue, hc, finalMem] using hb
    · intro m n a f hc b hb
      simpa [assignValue, hc, finalMem] using hb
    · intro m n a b hb
      simpa [assignValue, finalMem] using hb
    · intro m a f ty tgt hc b hb
      simp only [assignValue, hc, finalMem]
      rw [getObj_setCell_isSome]
      exact hb
    · intro m a f val hne hc b hb
      cases val with
      | cPtr ty tg => exact (hne ty tg rfl).elim
      | cInt v => simpa [assignValue, hc, finalMem] using hb
      | cCont el => simpa [assignValue, hc, finalMem] using hb
    · intro m a f hc b hb
      simpa [assignValue, hc, finalMem] using hb
    · intro m a b hb
      simpa [assignValue, finalMem] using hb
    · intro m t bb b hb
      simpa [assignValue, finalMem] using hb
    · intro m t s b hb
      simpa [assignValue, finalMem] using hb
    · intro m es a ih b hb
      simpa [assignTree] using ih b hb
    · intro m es a f hc b hb
      simpa [assignTree, hc, finalMem] using hb
    · intro m es a f v hc b hb
      simpa [assignTree, hc, finalMem] using hb
    · intro m es a f elems hc b hb
      simpa [assignTree, hc] using contAssign_dom a f m elems es b hb
    · intro m es a f ty v hc ih b hb
      simpa [assignTree, hc] using ih b hb
    · intro m es a f ty hnew hc b hb
      simpa [assignTree, hc, hnew, finalMem] using hb
    · intro m es a f ty hnew hc b hb
      simpa [assignTree, hc, hnew, finalMem] using hb
    · intro m es a f ty hnew hty hc b hb
      simpa [assignTree, hc, hnew, hty, finalMem] using hb
    · intro m es a f ty hnew d hty hc ih b hb
      have hb2 : ((((m.alloc d).1).setCell a f (.cPtr ty (some (m.alloc d).2))).getObj b).isSome = true := by
        rw [getObj_setCell_isSome]
        exact alloc_dom m d b hb
      simpa [assignTree, hc, hnew, hty] using ih b hb2
    · intro m es a f tn hnew hty hc b hb
      simpa [assignTree, hc, hnew, hty, finalMem] using hb
    · intro m es a f tn hnew d hty hc ih b hb
      have hb2 : ((((m.alloc d).1).setCell a f (.cPtr tn (some (m.alloc d).2))).getObj b).isSome = true := by
        rw [getObj_setCell_isSome]
        exact alloc_dom m d b hb
      simpa [assignTree, hc, hnew, hty] using ih b hb2
    · intro m es a f ty tn hnew hne hc b hb
      simpa [assignTree, hc, hnew, hne, finalMem] using hb
    · intro m es a f ty val h1 h2 h3 hnew hc b hb
      cases val with
      | bool bb =>
        cases bb with
        | false => exact (h1 rfl).elim
        | true => exact (h2 rfl).elim
      | typeName tn => exact (h3 tn rfl).elim
      | int v => simpa [assignTree, hc, hnew, finalMem] using hb
      | null => simpa [assignTree, hc, hnew, finalMem] using hb
      | tree es2 => simpa [assignTree, hc, hnew, finalMem] using hb
    · intro m a b hb
      simpa [assignStructEntries, finalMem] using hb
    · intro m a v t n b hb
      simpa [assignStructEntries, finalMem] using hb
    · intro m a v t s hs ih b hb
      simpa [assignStructEntries, hs] using ih b hb
    · intro m a v t s hs m1 hok ih1 ih3 b hb
      have hb1 : (m1.getObj b).isSome = true := by
        have := ih1 b hb
        rw [hok] at this
        simpa [finalMem] using this
      simpa [assignStructEntries, hs, hok] using ih3 b hb1
    · intro m a v t s hs e herr ih1 b hb
      have := ih1 b hb
      rw [herr] at this
      simpa [assignStructEntries, hs, herr, finalMem] using this
  intro m a es b
  exact main m a es b

theorem assignStructEntries_append (sch : Schema) (a : Nat) :
    ∀ (es1 es2 : TEntries) (m : Mem),
      assignStructEntries sch m a (es1.append es2) =
        match assignStructEntries sch m a es1 with
        | .ok mm => assignStructEntries sch mm a es2
        | .error e => .error e
  | .nil, es2, m => by simp [TEntries.append, assignStructEntries]
  | .cons (.num n) v t, es2, m => by
    simp [TEntries.append, assignStructEntries]
  | .cons (.str s) v t, es2, m => by
    by_cases hs : s = "assign" ∨ s = "new"
    · simpa [TEntries.append, assignStructEntries, hs] using
        assignStructEntries_append sch a t es2 m
    · cases hav : assignValue sch m (.fld a s) v with
      | ok m1 =>
        simpa [TEntries.append, assignStructEntries, hs, hav] using
          assignStructEntries_append sch a t es2 m1
      | error e =>
        simp [TEntries.append, assignStructEntries, hs, hav]

/-- C4: when a recursive assignment fails part-way through the walk, the
walk stops with the memory reached so far: the whole walk over the
concatenated entries returns exactly the failure of continuing from the
state after the successful prefix (no rollback to the initial memory),
and every object allocated before the failure is still allocated in the
failure state. -/
theorem c4_failure_no_rollback (sch : Schema) (a : Nat)
    (es1 es2 : TEntries) (m m1 m' : Mem) (e : AErr)
    (hassign : (es1.append es2).lookupStr "assign" = none)
    (h1 : assignStructEntries sch m a es1 = .ok m1)
    (h2 : assignStructEntries sch m1 a es2 = .error (e, m')) :
    assignValue sch m (.obj a) (.tree (es1.append es2)) = .error (e, m') ∧
    (∀ b, (m1.getObj b).isSome = true → (m'.getObj b).isSome = true) := by
  constructor
  · rw [assignValue_tree_noassign sch m (.obj a) _ hassign]
    simp only [assignTree]
    rw [assignStructEntries_append sch a es1 es2 m, h1]
    exact h2
  · intro b hb
    have := assignStructEntries_dom sch m1 a es2 b hb
    rw [h2] at this
    simpa [finalMem] using this

end DFAssign

namespace DFAssign

/-- Witness for c4_failure_no_rollback: the prefix sets x to 1, the suffix
fails on an undeclared field, and the failure state is the post-prefix
memory with the mutation in place. -/
theorem c4_failure_no_rollback_witness :
    ((TEntries.cons (.str "x") (.int 1) .nil).append
      (.cons (.str "oops") (.int 2) .nil)).lookupStr "assign" = none ∧
    (assignValue [] ⟨[(0, ⟨"S", [("x", Cell.cInt 0)]⟩)], 1⟩ (.obj 0)
      (.tree ((TEntries.cons (.str "x") (.int 1) .nil).append
        (.cons (.str "oops") (.int 2) .nil))) =
      .error (.NoSuchField, ⟨[(0, ⟨"S", [("x", Cell.cInt 1)]⟩)], 1⟩) ∧
    (∀ b, ((⟨[(0, ⟨"S", [("x", Cell.cInt 1)]⟩)], 1⟩ : Mem).getObj b).isSome = true →
      ((⟨[(0, ⟨"S", [("x", Cell.cInt 1)]⟩)], 1⟩ : Mem).getObj b).isSome = true)) :=
  ⟨rfl,
    c4_failure_no_rollback [] 0
      (.cons (.str "x") (.int 1) .nil) (.cons (.str "oops") (.int 2) .nil)
      ⟨[(0, ⟨"S", [("x", Cell.cInt 0)]⟩)], 1⟩
      ⟨[(0, ⟨"S", [("x", Cell.cInt 1)]⟩)], 1⟩
      ⟨[(0, ⟨"S", [("x", Cell.cInt 1)]⟩)], 1⟩
      .NoSuchField rfl
      (by simp [assignStructEntries, assignValue, Mem.getCell, Mem.getObj,
        Mem.setCell, alookup, areplace])
      (by simp [assignStructEntries, assignValue, Mem.getCell, Mem.getObj,
        Mem.setCell, alookup, areplace])⟩

end DFAssign

/-! ## Theorems: idempotence of recursive assignment (claim C7) -/

namespace DFAssign

/-- Counterexample to unconditional idempotence of recursive assignment:
on a memory where q points back at the target object, the tree assigns
new = true to the null pointer p (auto-vivification) while the q subtree
nulls p again; a second application re-vivifies and allocates another
object, so the final memory states of the first and second application
differ. -/
theorem c7_idempotence_counterexample :
    assignValue [⟨"T", [("p", FieldT.fPtr "T"), ("q", FieldT.fPtr "T")]⟩]
      ⟨[(0, ⟨"T", [("p", Cell.cPtr "T" none), ("q", Cell.cPtr "T" (some 0))]⟩)], 1⟩
      (.obj 0)
      (.tree (.cons (.str "p") (.tree (.cons (.str "new") (.bool true) .nil))
        (.cons (.str "q") (.tree (.cons (.str "p") .null .nil)) .nil))) =
      .ok ⟨[(1, ⟨"T", [("p", Cell.cPtr "T" none), ("q", Cell.cPtr "T" none)]⟩),
            (0, ⟨"T", [("p", Cell.cPtr "T" none), ("q", Cell.cPtr "T" (some 0))]⟩)], 2⟩ ∧
    assignValue [⟨"T", [("p", FieldT.fPtr "T"), ("q", FieldT.fPtr "T")]⟩]
      ⟨[(1, ⟨"T", [("p", Cell.cPtr "T" none), ("q", Cell.cPtr "T" none)]⟩),
        (0, ⟨"T", [("p", Cell.cPtr "T" none), ("q", Cell.cPtr "T" (some 0))]⟩)], 2⟩
      (.obj 0)
      (.tree (.cons (.str "p") (.tree (.cons (.str "new") (.bool true) .nil))
        (.cons (.str "q") (.tree (.cons (.str "p") .null .nil)) .nil))) =
      .ok ⟨[(2, ⟨"T", [("p", Cell.cPtr "T" none), ("q", Cell.cPtr "T" none)]⟩),
            (1, ⟨"T", [("p", Cell.cPtr "T" none), ("q", Cell.cPtr "T" none)]⟩),
            (0, ⟨"T", [("p", Cell.cPtr "T" none), ("q", Cell.cPtr "T" (some 0))]⟩)], 3⟩ ∧
    (⟨[(1, ⟨"T", [("p", Cell.cPtr "T" none), ("q", Cell.cPtr "T" none)]⟩),
       (0, ⟨"T", [("p", Cell.cPtr "T" none), ("q", Cell.cPtr "T" (some 0))]⟩)], 2⟩ : Mem) ≠
    ⟨[(2, ⟨"T", [("p", Cell.cPtr "T" none), ("q", Cell.cPtr "T" none)]⟩),
      (1, ⟨"T", [("p", Cell.cPtr "T" none), ("q", Cell.cPtr "T" none)]⟩),
      (0, ⟨"T", [("p", Cell.cPtr "T" none), ("q", Cell.cPtr "T" (some 0))]⟩)], 3⟩ := by
  refine ⟨?_, ?_, by decide⟩ <;>
    simp [assignValue_tree_noassign, assignTree, assignStructEntries, assignValue,
      TEntries.lookupStr, Schema.lookupType, List.find?, Mem.alloc, defaultObj,
      defaultCell, Mem.getCell, Mem.getObj, Mem.setCell, alookup, areplace]

end DFAssign

namespace DFAssign

theorem list_set_own : ∀ (L : List Int) (i : Nat) (x : Int),
    L.get? i = some x → L.set i x = L
  | [], i, x, h => by cases h
  | y :: t, 0, x, h => by
    simp only [List.get?] at h
    cases h
    rfl
  | y :: t, i + 1, x, h => by
    simp only [List.get?] at h
    simp [List.set, list_set_own t i x h]

theorem resizeList_self (L : List Int) (n : Nat) (h : L.length = n) :
    resizeList L n = L := by
  subst h
  simp [resizeList]

theorem seqPrefix_isSome (es : TEntries) :
    ∀ n, es.seqPrefix n = true → ∀ j, j < n → (es.lookupNum (j + 1)).isSome = true := by
  intro n
  induction n with
  | zero => intro _ j hj; omega
  | succ n ih =>
    intro h j hj
    simp only [TEntries.seqPrefix, Bool.and_eq_true] at h
    by_cases hjn : j = n
    · subst hjn
      exact h.2
    · exact ih h.1 j (by omega)

theorem luaLenFrom_seqPrefix (es : TEntries) :
    ∀ k, es.seqPrefix (luaLenFrom es k) = true := by
  intro k
  induction k with
  | zero => rfl
  | succ k ih =>
    by_cases h : es.seqPrefix (k + 1) = true
    · simp [luaLenFrom, h]
    · simpa [luaLenFrom, h] using ih

theorem luaLen_lookup_isSome (es : TEntries) (j : Nat) (hj : j < es.luaLen) :
    (es.lookupNum (j + 1)).isSome = true :=
  seqPrefix_isSome es es.luaLen (luaLenFrom_seqPrefix es es.count) j hj

theorem safeCont_lookupStr : ∀ (es : TEntries) (s : String),
    safeContEntries es = true → s ≠ "resize" → es.lookupStr s = none
  | .nil, s, _, _ => rfl
  | .cons (.str s0) v t, s, hsafe, hs => by
    simp only [safeContEntries, Bool.and_eq_true, beq_iff_eq] at hsafe
    obtain ⟨⟨h0, -⟩, hts⟩ := hsafe
    have hne : ¬ s0 = s := by
      intro he
      exact hs (he ▸ h0)
    simp only [TEntries.lookupStr, if_neg hne]
    exact safeCont_lookupStr t s hts hs
  | .cons (.num n) v t, s, hsafe, hs => by
    simp only [safeContEntries, Bool.and_eq_true] at hsafe
    simp only [TEntries.lookupStr]
    exact safeCont_lookupStr t s hsafe.2 hs

theorem safeCont_lookupNum_int : ∀ (es : TEntries) (q : Nat) (v : TVal),
    safeContEntries es = true → es.lookupNum q = some v → ∃ vv : Int, v = .int vv
  | .nil, q, v, _, h => by cases h
  | .cons (.str s0) w t, q, v, hsafe, h => by
    simp only [safeContEntries, Bool.and_eq_true] at hsafe
    simp only [TEntries.lookupNum] at h
    exact safeCont_lookupNum_int t q v hsafe.2 h
  | .cons (.num n) w t, q, v, hsafe, h => by
    simp only [safeContEntries, Bool.and_eq_true] at hsafe
    obtain ⟨⟨hw, -⟩, hts⟩ := hsafe
    by_cases hn : n = q
    · simp only [TEntries.lookupNum, if_pos hn] at h
      cases h
      cases w with
      | int vv => exact ⟨vv, rfl⟩
      | bool b => cases hw
      | null => cases hw
      | typeName s => cases hw
      | tree es2 => cases hw
    · simp only [TEntries.lookupNum, if_neg hn] at h
      exact safeCont_lookupNum_int t q v hts h

theorem safeStruct_lookupStr_assign : ∀ (ks : List (String × FKind)) (es : TEntries),
    safeStructEntries ks es = true → es.lookupStr "assign" = none
  | ks, .nil, _ => rfl
  | ks, .cons (.str s) v t, hsafe => by
    simp only [safeStructEntries, Bool.and_eq_true, Bool.not_eq_true', beq_eq_false_iff_ne,
      ne_eq] at hsafe
    obtain ⟨⟨⟨⟨hs, -⟩, -⟩, -⟩, hts⟩ := hsafe
    simp only [TEntries.lookupStr, if_neg hs]
    exact safeStruct_lookupStr_assign ks t hts
  | ks, .cons (.num n) v t, hsafe => by
    simp [safeStructEntries] at hsafe

theorem kinds_lookup (o : Obj) (s : String) (k : FKind)
    (h : alookup o.kinds s = some k) :
    ∃ c, alookup o.cells s = some c ∧ c.kind = k := by
  unfold Obj.kinds at h
  rw [alookup_map_snd] at h
  cases hc : alookup o.cells s with
  | none => rw [hc] at h; cases h
  | some c =>
    rw [hc] at h
    refine ⟨c, rfl, ?_⟩
    simpa using h

theorem areplace_kinds (cells : List (String × Cell)) (s : String) (c c' : Cell)
    (hc : alookup cells s = some c) (hk : c'.kind = c.kind) :
    (areplace cells s c').map (fun p => (p.1, p.2.kind)) =
      cells.map (fun p => (p.1, p.2.kind)) := by
  induction cells with
  | nil => rfl
  | cons p t ih =>
    obtain ⟨pk, pv⟩ := p
    by_cases hp : pk = s
    · subst hp
      simp only [alookup, if_pos rfl] at hc
      cases hc
      simp [areplace, hk]
    · simp only [alookup, if_neg hp] at hc
      simp [areplace, hp, ih hc]

theorem getObj_kinds_setCell (m : Mem) (a : Nat) (s : String) (c c' : Cell) (o : Obj)
    (ho : m.getObj a = some o) (hc : alookup o.cells s = some c)
    (hk : c'.kind = c.kind) :
    ∃ o1, (m.setCell a s c').getObj a = some o1 ∧ o1.kinds = o.kinds := by
  refine ⟨⟨o.typeName, areplace o.cells s c'⟩, getObj_after_setCell m a s c' o ho, ?_⟩
  show (areplace o.cells s c').map (fun p => (p.1, p.2.kind)) = o.kinds
  rw [areplace_kinds o.cells s c c' hc hk]
  rfl

end DFAssign

namespace DFAssign

theorem writeSeq_id (a : Nat) (f : String) (es : TEntries) (vals : Nat → Int)
    (k i : Nat) (m : Mem) (L : List Int)
    (hv : ∀ j, i ≤ j → j < i + k → es.lookupNum (j + 1) = some (.int (vals j)))
    (hc : m.getCell a f = some (.cCont L))
    (hlen : i + k ≤ L.length)
    (hown : ∀ j, i ≤ j → j < i + k → L.get? j = some (vals j)) :
    writeSeq a f es m i k = .ok m := by
  obtain ⟨L', h1, h2, h3⟩ := writeSeq_ok a f es vals k i m L hv hc hlen
  have hLL : L' = L := by
    apply List.ext_get?
    intro j
    rw [h3 j]
    by_cases hj : i ≤ j ∧ j < i + k
    · rw [if_pos hj, hown j hj.1 hj.2]
    · rw [if_neg hj]
  rw [h1, hLL, setCell_cancel m a f _ hc]

theorem keyedWrites_ok_char (a : Nat) (f : String) :
    ∀ (es : TEntries) (m : Mem) (L : List Int) (m' : Mem),
      m.getCell a f = some (.cCont L) →
      safeContEntries es = true →
      keyedWrites a f m es = .ok m' →
      ∃ L', m' = m.setCell a f (.cCont L') ∧ L'.length = L.length ∧
        (∀ j vv, es.lookupNum j = some (.int vv) → L'.get? j = some vv) ∧
        (∀ j, es.lookupNum j = none → L'.get? j = L.get? j)
  | .nil, m, L, m', hc, _, hok => by
    simp only [keyedWrites] at hok
    cases hok
    refine ⟨L, (setCell_cancel m a f _ hc).symm, rfl, ?_, ?_⟩
    · intro j vv h
      simp [TEntries.lookupNum] at h
    · intro j _
      rfl
  | .cons (.str s) v t, m, L, m', hc, hsafe, hok => by
    simp only [safeContEntries, Bool.and_eq_true, beq_iff_eq] at hsafe
    obtain ⟨⟨hs0, -⟩, hts⟩ := hsafe
    have hskip : s = "resize" ∨ s = "assign" := Or.inl hs0
    simp only [keyedWrites, if_pos hskip] at hok
    obtain ⟨L', h1, h2, h3, h4⟩ := keyedWrites_ok_char a f t m L m' hc hts hok
    exact ⟨L', h1, h2,
      fun j vv h => h3 j vv (by simpa [TEntries.lookupNum] using h),
      fun j h => h4 j (by simpa [TEntries.lookupNum] using h)⟩
  | .cons (.num n) v t, m, L, m', hc, hsafe, hok => by
    simp only [safeContEntries, Bool.and_eq_true] at hsafe
    obtain ⟨⟨hv0, hnodup⟩, hts⟩ := hsafe
    cases v with
    | int vv =>
      by_cases hn : n < L.length
      · simp only [keyedWrites, hc, if_pos hn] at hok
        have hset : (m.setCell a f (.cCont (L.set n vv))).getCell a f =
            some (.cCont (L.set n vv)) := getCell_setCell_same m a f _ _ hc
        obtain ⟨L', h1, h2, h3, h4⟩ :=
          keyedWrites_ok_char a f t (m.setCell a f (.cCont (L.set n vv)))
            (L.set n vv) m' hset hts hok
        have htn : t.lookupNum n = none := by
          cases hx : t.lookupNum n with
          | none => rfl
          | some w => simp [TEntries.hasNum, hx] at hnodup
        refine ⟨L', by rw [h1, setCell_setCell], by rw [h2, List.length_set], ?_, ?_⟩
        · intro j vv' hj
          by_cases hjn : n = j
          · subst hjn
            simp only [TEntries.lookupNum, if_pos rfl] at hj
            cases hj
            rw [h4 n htn, List.get?_set_eq_of_lt _ hn]
          · simp only [TEntries.lookupNum, if_neg hjn] at hj
            exact h3 j vv' hj
        · intro j hj
          have hjn : ¬ n = j := by
            intro he
            simp [TEntries.lookupNum, he] at hj
          have hjt : t.lookupNum j = none := by
            simpa [TEntries.lookupNum, hjn] using hj
          rw [h4 j hjt, List.get?_set_ne _ _ hjn]
      · simp only [keyedWrites, hc, if_neg hn] at hok
        cases hok
    | bool b => cases hv0
    | null => cases hv0
    | typeName s => cases hv0
    | tree es2 => cases hv0

theorem keyedWrites_id (a : Nat) (f : String) :
    ∀ (es : TEntries) (m : Mem) (L : List Int),
      m.getCell a f = some (.cCont L) →
      safeContEntries es = true →
      (∀ j vv, es.lookupNum j = some (.int vv) → L.get? j = some vv) →
      keyedWrites a f m es = .ok m
  | .nil, m, L, hc, _, _ => by simp [keyedWrites]
  | .cons (.str s) v t, m, L, hc, hsafe, hv => by
    simp only [safeContEntries, Bool.and_eq_true, beq_iff_eq] at hsafe
    obtain ⟨⟨hs0, -⟩, hts⟩ := hsafe
    have hskip : s = "resize" ∨ s = "assign" := Or.inl hs0
    simp only [keyedWrites, if_pos hskip]
    exact keyedWrites_id a f t m L hc hts
      (fun j vv h => hv j vv (by simpa [TEntries.lookupNum] using h))
  | .cons (.num n) v t, m, L, hc, hsafe, hv => by
    simp only [safeContEntries, Bool.and_eq_true] at hsafe
    obtain ⟨⟨hv0, hnodup⟩, hts⟩ := hsafe
    cases v with
    | int vv =>
      have hown : L.get? n = some vv := hv n vv (by simp [TEntries.lookupNum])
      have hn : n < L.length := by
        have := List.get?_eq_some.mp hown
        exact this.1
      simp only [keyedWrites, hc, if_pos hn]
      rw [list_set_own L n vv hown, setCell_cancel m a f _ hc]
      refine keyedWrites_id a f t m L hc hts ?_
      intro j vv' hj
      have hjn : ¬ n = j := by
        intro he
        subst he
        have : (t.lookupNum n).isSome = true := by simp [hj]
        simp only [TEntries.hasNum, Bool.not_eq_true'] at hnodup
        rw [hnodup] at this
        cases this
      exact hv j vv' (by simpa [TEntries.lookupNum, hjn] using hj)
    | bool b => cases hv0
    | null => cases hv0
    | typeName s => cases hv0
    | tree es2 => cases hv0

end DFAssign

namespace DFAssign

theorem contAssign_ok_restart (a : Nat) (f : String) (m : Mem) (elems : List Int)
    (es : TEntries) (m' : Mem)
    (hc : m.getCell a f = some (.cCont elems))
    (hsafe : safeContEntries es = true)
    (hok : contAssign a f m elems es = .ok m') :
    ∃ L', m' = m.setCell a f (.cCont L') ∧ m'.getCell a f = some (.cCont L') ∧
      (∀ m2 : Mem, m2.getCell a f = some (.cCont L') →
        contAssign a f m2 L' es = .ok m2) := by
  cases hr : es.lookupStr "resize" with
  | none =>
    set n : Nat := es.luaLen with hn
    set vals : Nat → Int := fun j =>
      match es.lookupNum (j + 1) with
      | some (.int v) => v
      | _ => 0 with hvals
    have hv : ∀ j, 0 ≤ j → j < 0 + n → es.lookupNum (j + 1) = some (.int (vals j)) := by
      intro j _ hj
      have hs := luaLen_lookup_isSome es j (by omega)
      obtain ⟨v, hvj⟩ := Option.isSome_iff_exists.mp hs
      obtain ⟨vv, rfl⟩ := safeCont_lookupNum_int es (j + 1) v hsafe hvj
      rw [hvj, hvals]
      simp [hvj]
    simp only [contAssign, hr] at hok
    have hset : (m.setCell a f (.cCont (resizeList elems n))).getCell a f =
        some (.cCont (resizeList elems n)) := getCell_setCell_same m a f _ _ hc
    obtain ⟨L', h1, h2, h3⟩ := writeSeq_ok a f es vals n 0
      (m.setCell a f (.cCont (resizeList elems n))) (resizeList elems n)
      hv hset (by rw [resizeList_length]; omega)
    rw [h1, setCell_setCell] at hok
    have hm' : m' = m.setCell a f (.cCont L') := by
      cases hok
      rfl
    have hL'len : L'.length = n := by
      rw [h2, resizeList_length]
    refine ⟨L', hm', by rw [hm']; exact getCell_setCell_same m a f _ _ hc, ?_⟩
    intro m2 hm2
    simp only [contAssign, hr]
    rw [resizeList_self L' n hL'len, setCell_cancel m2 a f _ hm2]
    exact writeSeq_id a f es vals n 0 m2 L' hv hm2 (by rw [hL'len]; omega) (by
      intro j _ hj
      rw [h3 j, if_pos (by omega)])
  | some rv =>
    cases rv with
    | bool bb =>
      cases bb with
      | false =>
        simp only [contAssign, hr] at hok
        obtain ⟨L', h1, h2, h3, h4⟩ := keyedWrites_ok_char a f es m elems m' hc hsafe hok
        refine ⟨L', h1, by rw [h1]; exact getCell_setCell_same m a f _ _ hc, ?_⟩
        intro m2 hm2
        simp only [contAssign, hr]
        exact keyedWrites_id a f es m2 L' hm2 hsafe h3
      | true =>
        simp only [contAssign, hr] at hok
        have hset : (m.setCell a f (.cCont (resizeList elems es.maxNumKey))).getCell a f =
            some (.cCont (resizeList elems es.maxNumKey)) := getCell_setCell_same m a f _ _ hc
        obtain ⟨L', h1, h2, h3, h4⟩ := keyedWrites_ok_char a f es
          (m.setCell a f (.cCont (resizeList elems es.maxNumKey)))
          (resizeList elems es.maxNumKey) m' hset hsafe hok
        rw [setCell_setCell] at h1
        have hL'len : L'.length = es.maxNumKey := by
          rw [h2, resizeList_length]
        refine ⟨L', h1, by rw [h1]; exact getCell_setCell_same m a f _ _ hc, ?_⟩
        intro m2 hm2
        simp only [contAssign, hr]
        rw [resizeList_self L' es.maxNumKey hL'len, setCell_cancel m2 a f _ hm2]
        exact keyedWrites_id a f es m2 L' hm2 hsafe h3
    | int c =>
      by_cases hcneg : c < 0
      · simp only [contAssign, hr, if_pos hcneg] at hok
        cases hok
      · simp only [contAssign, hr, if_neg hcneg] at hok
        have hset : (m.setCell a f (.cCont (resizeList elems c.toNat))).getCell a f =
            some (.cCont (resizeList elems c.toNat)) := getCell_setCell_same m a f _ _ hc
        obtain ⟨L', h1, h2, h3, h4⟩ := keyedWrites_ok_char a f es
          (m.setCell a f (.cCont (resizeList elems c.toNat)))
          (resizeList elems c.toNat) m' hset hsafe hok
        rw [setCell_setCell] at h1
        have hL'len : L'.length = c.toNat := by
          rw [h2, resizeList_length]
        refine ⟨L', h1, by rw [h1]; exact getCell_setCell_same m a f _ _ hc, ?_⟩
        intro m2 hm2
        simp only [contAssign, hr, if_neg hcneg]
        rw [resizeList_self L' c.toNat hL'len, setCell_cancel m2 a f _ hm2]
        exact keyedWrites_id a f es m2 L' hm2 hsafe h3
    | null =>
      simp only [contAssign, hr] at hok
      cases hok
    | typeName s =>
      simp only [contAssign, hr] at hok
      cases hok
    | tree es2 =>
      simp only [contAssign, hr] at hok
      cases hok

end DFAssign

namespace DFAssign

theorem assignValue_fld_char (sch : Schema) (a : Nat) (s : String) (v : TVal)
    (m m' : Mem) (c : Cell)
    (hc : m.getCell a s = some c)
    (hsafe : safeFld c.kind v = true)
    (hok : assignValue sch m (.fld a s) v = .ok m') :
    ∃ c', m' = m.setCell a s c' ∧ c'.kind = c.kind ∧ m'.getCell a s = some c' ∧
      (∀ m2 : Mem, m2.getCell a s = some c' →
        assignValue sch m2 (.fld a s) v = .ok m2) := by
  cases c with
  | cInt w =>
    cases v with
    | int n =>
      simp only [assignValue, hc] at hok
      cases hok
      refine ⟨.cInt n, rfl, rfl, getCell_setCell_same m a s _ _ hc, ?_⟩
      intro m2 hm2
      simp only [assignValue, hm2]
      rw [setCell_cancel m2 a s _ hm2]
    | bool b => simp [safeFld, Cell.kind] at hsafe
    | null => simp [safeFld, Cell.kind] at hsafe
    | typeName t => simp [safeFld, Cell.kind] at hsafe
    | tree es => simp [safeFld, Cell.kind] at hsafe
  | cPtr ty tg =>
    cases v with
    | null =>
      simp only [assignValue, hc] at hok
      cases hok
      refine ⟨.cPtr ty none, rfl, rfl, getCell_setCell_same m a s _ _ hc, ?_⟩
      intro m2 hm2
      simp only [assignValue, hm2]
      rw [setCell_cancel m2 a s _ hm2]
    | int n => simp [safeFld, Cell.kind] at hsafe
    | bool b => simp [safeFld, Cell.kind] at hsafe
    | typeName t => simp [safeFld, Cell.kind] at hsafe
    | tree es => simp [safeFld, Cell.kind] at hsafe
  | cCont elems =>
    cases v with
    | tree es =>
      simp only [safeFld, Cell.kind] at hsafe
      have hna : es.lookupStr "assign" = none :=
        safeCont_lookupStr es "assign" hsafe (by decide)
      rw [assignValue_tree_noassign sch m (.fld a s) es hna] at hok
      simp only [assignTree, hc] at hok
      obtain ⟨L', h1, h2, hres⟩ := contAssign_ok_restart a s m elems es m' hc hsafe hok
      refine ⟨.cCont L', h1, rfl, h2, ?_⟩
      intro m2 hm2
      rw [assignValue_tree_noassign sch m2 (.fld a s) es hna]
      simp only [assignTree, hm2]
      exact hres m2 hm2
    | int n => simp [safeFld, Cell.kind] at hsafe
    | bool b => simp [safeFld, Cell.kind] at hsafe
    | null => simp [safeFld, Cell.kind] at hsafe
    | typeName t => simp [safeFld, Cell.kind] at hsafe

end DFAssign

namespace DFAssign

theorem safeStruct_cons_destruct (ks : List (String × FKind)) (s : String)
    (v : TVal) (t : TEntries)
    (h : safeStructEntries ks (.cons (.str s) v t) = true) :
    ¬(s = "assign" ∨ s = "new") ∧ t.hasStr s = false ∧
      (∃ k, alookup ks s = some k ∧ safeFld k v = true) ∧
      safeStructEntries ks t = true := by
  simp only [safeStructEntries, Bool.and_eq_true, Bool.not_eq_true',
    beq_eq_false_iff_ne, ne_eq] at h
  obtain ⟨⟨⟨⟨ha, hn⟩, hd⟩, hk⟩, ht⟩ := h
  refine ⟨?_, hd, ?_, ht⟩
  · rintro (he | he)
    · exact ha he
    · exact hn he
  · cases hlk : alookup ks s with
    | none => rw [hlk] at hk; cases hk
    | some k =>
      rw [hlk] at hk
      exact ⟨k, rfl, hk⟩

theorem hasStr_cons_false (s g : String) (v : TVal) (t : TEntries)
    (h : (TEntries.cons (.str s) v t).hasStr g = false) :
    ¬ s = g ∧ t.hasStr g = false := by
  by_cases hsg : s = g
  · simp [TEntries.hasStr, TEntries.lookupStr, hsg] at h
  · constructor
    · exact hsg
    · simpa [TEntries.hasStr, TEntries.lookupStr, hsg] using h

theorem assignStructEntries_safe_frame (sch : Schema) (a : Nat) :
    ∀ (es : TEntries) (m m' : Mem) (o : Obj),
      m.getObj a = some o →
      safeStructEntries o.kinds es = true →
      assignStructEntries sch m a es = .ok m' →
      ∀ b g, (b ≠ a ∨ es.hasStr g = false) → m'.getCell b g = m.getCell b g
  | .nil, m, m', o, ho, hsafe, hok => by
    simp only [assignStructEntries] at hok
    cases hok
    intro b g _
    rfl
  | .cons (.num n) v t, m, m', o, ho, hsafe, hok => by
    simp [safeStructEntries] at hsafe
  | .cons (.str s) v t, m, m', o, ho, hsafe, hok => by
    obtain ⟨hskip, hdup, ⟨k, hk, hsafeF⟩, hts⟩ := safeStruct_cons_destruct _ s v t hsafe
    simp only [assignStructEntries, if_neg hskip] at hok
    cases hav : assignValue sch m (.fld a s) v with
    | error e => rw [hav] at hok; cases hok
    | ok m1 =>
      rw [hav] at hok
      obtain ⟨c, hcell, hckind⟩ := kinds_lookup o s k hk
      have hgc : m.getCell a s = some c := by
        rw [getCell_some_obj m a s o ho]
        exact hcell
      have hsafeF' : safeFld c.kind v = true := by
        rw [hckind]
        exact hsafeF
      obtain ⟨c', hm1, hkind, hm1c, hres⟩ :=
        assignValue_fld_char sch a s v m m1 c hgc hsafeF' hav
      obtain ⟨o1, ho1, ho1k⟩ := getObj_kinds_setCell m a s c c' o ho hcell hkind
      have ho1' : m1.getObj a = some o1 := by
        rw [hm1]
        exact ho1
      have hts1 : safeStructEntries o1.kinds t = true := by
        rw [ho1k]
        exact hts
      have hframe := assignStructEntries_safe_frame sch a t m1 m' o1 ho1' hts1 hok
      intro b g hb
      rcases hb with hb | hb
      · rw [hframe b g (Or.inl hb), hm1,
          getCell_setCell_ne m a s c' b g (Or.inl hb)]
      · obtain ⟨hsg, htg⟩ := hasStr_cons_false s g v t hb
        rw [hframe b g (Or.inr htg), hm1]
        by_cases hba : b = a
        · subst hba
          rw [getCell_setCell_ne m b s c' b g (Or.inr (fun he => hsg he.symm))]
        · rw [getCell_setCell_ne m a s c' b g (Or.inl hba)]

theorem assignStructEntries_idem (sch : Schema) (a : Nat) :
    ∀ (es : TEntries) (m m' : Mem) (o : Obj),
      m.getObj a = some o →
      safeStructEntries o.kinds es = true →
      assignStructEntries sch m a es = .ok m' →
      assignStructEntries sch m' a es = .ok m'
  | .nil, m, m', o, ho, hsafe, hok => by
    simp only [assignStructEntries] at hok
    cases hok
    simp [assignStructEntries]
  | .cons (.num n) v t, m, m', o, ho, hsafe, hok => by
    simp [safeStructEntries] at hsafe
  | .cons (.str s) v t, m, m', o, ho, hsafe, hok => by
    obtain ⟨hskip, hdup, ⟨k, hk, hsafeF⟩, hts⟩ := safeStruct_cons_destruct _ s v t hsafe
    simp only [assignStructEntries, if_neg hskip] at hok
    cases hav : assignValue sch m (.fld a s) v with
    | error e => rw [hav] at hok; cases hok
    | ok m1 =>
      rw [hav] at hok
      obtain ⟨c, hcell, hckind⟩ := kinds_lookup o s k hk
      have hgc : m.getCell a s = some c := by
        rw [getCell_some_obj m a s o ho]
        exact hcell
      have hsafeF' : safeFld c.kind v = true := by
        rw [hckind]
        exact hsafeF
      obtain ⟨c', hm1, hkind, hm1c, hres⟩ :=
        assignValue_fld_char sch a s v m m1 c hgc hsafeF' hav
      obtain ⟨o1, ho1, ho1k⟩ := getObj_kinds_setCell m a s c c' o ho hcell hkind
      have ho1' : m1.getObj a = some o1 := by
        rw [hm1]
        exact ho1
      have hts1 : safeStructEntries o1.kinds t = true := by
        rw [ho1k]
        exact hts
      have hm'c : m'.getCell a s = some c' := by
        rw [assignStructEntries_safe_frame sch a t m1 m' o1 ho1' hts1 hok a s
          (Or.inr hdup)]
        exact hm1c
      simp only [assignStructEntries, if_neg hskip, hres m' hm'c]
      exact assignStructEntries_idem sch a t m1 m' o1 ho1' hts1 hok

/-- C7 amended: recursive assignment is idempotent on pointer-free trees:
for a struct-object target and a tree whose keys are pairwise-distinct
declared field names (never assign or new) and whose values are scalars on
scalar fields, the explicit null sentinel on pointer fields, and
alias-free container subtrees on container fields, a successful assignment
applied a second time succeeds and leaves the memory state identical.  The
unconditional claim fails: see the counterexample, where auto-vivification
through an aliasing pointer makes the second application allocate a fresh
object. -/
theorem c7_amended_idempotent_safe (sch : Schema) (m m' : Mem) (a : Nat)
    (o : Obj) (es : TEntries)
    (ho : m.getObj a = some o)
    (hsafe : safeStructEntries o.kinds es = true)
    (hok : assignValue sch m (.obj a) (.tree es) = .ok m') :
    assignValue sch m' (.obj a) (.tree es) = .ok m' := by
  have hna := safeStruct_lookupStr_assign o.kinds es hsafe
  rw [assignValue_tree_noassign sch m (.obj a) es hna] at hok
  simp only [assignTree] at hok
  rw [assignValue_tree_noassign sch m' (.obj a) es hna]
  simp only [assignTree]
  exact assignStructEntries_idem sch a es m m' o ho hsafe hok

/-- Witness for c7_amended_idempotent_safe: setting the scalar field x to
5 succeeds, and reapplying the same tree to the resulting memory returns
that memory unchanged. -/
theorem c7_amended_idempotent_safe_witness :
    (⟨[(0, ⟨"S", [("x", Cell.cInt 0)]⟩)], 1⟩ : Mem).getObj 0 =
      some ⟨"S", [("x", Cell.cInt 0)]⟩ ∧
    safeStructEntries (Obj.kinds ⟨"S", [("x", Cell.cInt 0)]⟩)
      (.cons (.str "x") (.int 5) .nil) = true ∧
    assignValue [] ⟨[(0, ⟨"S", [("x", Cell.cInt 5)]⟩)], 1⟩ (.obj 0)
      (.tree (.cons (.str "x") (.int 5) .nil)) =
      .ok ⟨[(0, ⟨"S", [("x", Cell.cInt 5)]⟩)], 1⟩ :=
  ⟨by decide, by decide,
    c7_amended_idempotent_safe [] ⟨[(0, ⟨"S", [("x", Cell.cInt 0)]⟩)], 1⟩
      ⟨[(0, ⟨"S", [("x", Cell.cInt 5)]⟩)], 1⟩ 0 ⟨"S", [("x", Cell.cInt 0)]⟩
      (.cons (.str "x") (.int 5) .nil) (by decide) (by decide)
      (by
        rw [assignValue_tree_noassign [] ⟨[(0, ⟨"S", [("x", Cell.cInt 0)]⟩)], 1⟩
          (.obj 0) (.cons (.str "x") (.int 5) .nil) rfl]
        simp [assignTree, assignStructEntries, assignValue, Mem.getCell,
          Mem.getObj, Mem.setCell, alookup, areplace])⟩

end DFAssign

/-! ## Theorems: FloodBrush termination and output (claim C10) -/

namespace DFBrush

theorem floodLoop_invariant (mc : MapCacheM) (univ : List DFCoord)
    (huniv : ∀ c, mc.testCoord c = true → c ∈ univ)
    (hdes : ∀ c, mc.testCoord c = false → (mc.designationAt c).flowSize = 0) :
    ∀ (stack seen v : List DFCoord),
      v.Nodup →
      (∀ c ∈ v, mc.testCoord c = true ∧ (mc.designationAt c).flowSize ≠ 0 ∧
        (mc.designationAt c).liquidType = .Water) →
      (∀ c ∈ v, c ∈ seen) →
      (floodLoop mc univ huniv hdes stack seen v).Nodup ∧
      ∀ c ∈ floodLoop mc univ huniv hdes stack seen v,
        mc.testCoord c = true ∧ (mc.designationAt c).flowSize ≠ 0 ∧
        (mc.designationAt c).liquidType = .Water := by
  intro stack seen v
  induction stack, seen, v using floodLoop.induct mc univ huniv hdes with
  | case1 seen v =>
    intro h1 h2 _
    simp only [floodLoop]
    exact ⟨h1, h2⟩
  | case2 xy rest seen v hgood ih =>
    intro h1 h2 h3
    have htest : mc.testCoord xy = true := by
      cases ht : mc.testCoord xy
      · exact absurd (hdes xy ht) hgood.2.1
      · rfl
    have hxv : xy ∉ v := fun hin => hgood.1 (h3 xy hin)
    have h1' : (v ++ [xy]).Nodup := by
      rw [List.nodup_append]
      refine ⟨h1, List.nodup_singleton xy, ?_⟩
      intro a ha hb
      rw [List.mem_singleton] at hb
      subst hb
      exact hxv ha
    have h2' : ∀ c ∈ v ++ [xy], mc.testCoord c = true ∧
        (mc.designationAt c).flowSize ≠ 0 ∧
        (mc.designationAt c).liquidType = .Water := by
      intro c hc
      rcases List.mem_append.mp hc with hc | hc
      · exact h2 c hc
      · rw [List.mem_singleton] at hc
        subst hc
        exact ⟨htest, hgood.2.1, hgood.2.2⟩
    have h3' : ∀ c ∈ v ++ [xy], c ∈ xy :: seen := by
      intro c hc
      rcases List.mem_append.mp hc with hc | hc
      · exact List.mem_cons_of_mem _ (h3 c hc)
      · rw [List.mem_singleton] at hc
        subst hc
        exact List.mem_cons_self _ _
    have := ih h1' h2' h3'
    simp only [floodLoop, dif_pos hgood]
    exact this
  | case3 xy rest seen v hgood ih =>
    intro h1 h2 h3
    have := ih h1 h2 h3
    simp only [floodLoop, dif_neg hgood]
    exact this

/-- C10: FloodBrush::points terminates for a map cache accepting only
finitely many coordinates (the loop is a total function by a decreasing
measure over the unseen accepted coordinates and the stack), and the
returned list has pairwise-distinct coordinates, each accepted by
testCoord, with a nonzero flow_size designation of liquid type Water. -/
theorem c10_flood_brush_points (mc : MapCacheM) (univ : List DFCoord)
    (huniv : ∀ c, mc.testCoord c = true → c ∈ univ)
    (hdes : ∀ c, mc.testCoord c = false → (mc.designationAt c).flowSize = 0)
    (start : DFCoord) :
    (points mc univ huniv hdes start).Nodup ∧
    ∀ c ∈ points mc univ huniv hdes start,
      mc.testCoord c = true ∧ (mc.designationAt c).flowSize ≠ 0 ∧
      (mc.designationAt c).liquidType = .Water :=
  floodLoop_invariant mc univ huniv hdes [start] [] []
    List.nodup_nil (fun c hc => absurd hc (List.not_mem_nil c))
    (fun c hc => absurd hc (List.not_mem_nil c))

/-- Witness for c10_flood_brush_points: the empty map cache (no accepted
coordinates, zero designations) and the empty finiteness witness. -/
theorem c10_flood_brush_points_witness :
    (points ⟨fun _ => false, fun _ => ⟨0, .Water⟩, fun _ => false, fun _ => false⟩
      [] (fun c h => by simp at h) (fun _ _ => rfl) ⟨0, 0, 0⟩).Nodup ∧
    ∀ c ∈ points ⟨fun _ => false, fun _ => ⟨0, .Water⟩, fun _ => false, fun _ => false⟩
        [] (fun c h => by simp at h) (fun _ _ => rfl) ⟨0, 0, 0⟩,
      (⟨fun _ => false, fun _ => ⟨0, .Water⟩, fun _ => false, fun _ => false⟩ :
        MapCacheM).testCoord c = true ∧
      ((⟨fun _ => false, fun _ => ⟨0, .Water⟩, fun _ => false, fun _ => false⟩ :
        MapCacheM).designationAt c).flowSize ≠ 0 ∧
      ((⟨fun _ => false, fun _ => ⟨0, .Water⟩, fun _ => false, fun _ => false⟩ :
        MapCacheM).designationAt c).liquidType = .Water :=
  c10_flood_brush_points
    ⟨fun _ => false, fun _ => ⟨0, .Water⟩, fun _ => false, fun _ => false⟩
    [] (fun c h => by simp at h) (fun _ _ => rfl) ⟨0, 0, 0⟩

end DFBrush
